import Mathlib

/-!
Shallow embedding of the go-wc repository's core counting engine
(`pkg/wc`: `CountReader`, `CountBytes`, `asciiSpace`) and of the
dispatcher / reassembler / aggregator logic of `cmd/go_wc/main.go`.

Bytes are modelled as `Nat` (always < 256 in inputs of interest); the Go
`uint64` counters are modelled as `Nat` (the spec declares counter overflow
undefined, so no wrap-around is modelled).  A byte stream handed to
`CountReader` is modelled as the list of chunks successively returned by
`Read`; `CountBytes` chunks an in-memory byte list into `BufferSize`-sized
chunks, which is exactly what `bufio.Reader` over `bytesReader` delivers.
-/

namespace GoWc

/-- `locale.Info` from `pkg/wc/locale/locale.go` (the `Encoding` string field
is irrelevant to counting and omitted). -/
structure Info where
  isUTF8 : Bool
  isCOrPOSIX : Bool
deriving DecidableEq, Repr

/-- `Metrics` from `pkg/wc/wc.go`: which counters to compute. -/
structure Metrics where
  lines : Bool
  words : Bool
  bytes : Bool
  chars : Bool
  maxLineBytes : Bool
  maxLineChars : Bool
deriving DecidableEq, Repr

/-- `Options` from `pkg/wc/wc.go`. -/
structure Options where
  bufferSize : Nat
  locale : Info
deriving DecidableEq, Repr

/-- `FileResult` from `pkg/wc/wc.go`.  `Filename` and `Duration` carry no
counting content and are omitted; the Go `Err error` field is modelled as a
Bool recording whether an error is attached. -/
structure FileResult where
  index : Nat := 0
  lines : Nat := 0
  words : Nat := 0
  bytes : Nat := 0
  chars : Nat := 0
  maxLineBytes : Nat := 0
  maxLineChars : Nat := 0
  err : Bool := false
deriving DecidableEq, Repr

/-- `asciiSpace` from `pkg/wc/ascii.go`: the 256-entry table is true exactly
at tab, newline, vertical tab, form feed, carriage return and space. -/
def asciiSpace (b : Nat) : Bool :=
  b == 9 || b == 10 || b == 11 || b == 12 || b == 13 || b == 32

/-- `utf8.RuneError` (U+FFFD). -/
def runeError : Nat := 0xFFFD

/-- Lower bound of the accepted second byte for a given first byte, as in the
`first` / `acceptRanges` tables of Go's `unicode/utf8`. -/
def acceptLo (b0 : Nat) : Nat :=
  if b0 == 0xE0 then 0xA0 else if b0 == 0xF0 then 0x90 else 0x80

/-- Upper bound of the accepted second byte for a given first byte. -/
def acceptHi (b0 : Nat) : Nat :=
  if b0 == 0xED then 0x9F else if b0 == 0xF4 then 0x8F else 0xBF

/-- Length of the encoding selected by the first byte (0 for an invalid first
byte). -/
def runeLen (b0 : Nat) : Nat :=
  if b0 < 0x80 then 1
  else if b0 < 0xC2 then 0
  else if b0 < 0xE0 then 2
  else if b0 < 0xF0 then 3
  else if b0 < 0xF5 then 4
  else 0

/-- Go's `utf8.DecodeRune`: returns the decoded rune value together with the
number of bytes consumed.  On an empty input it returns `(RuneError, 0)`; on
any invalid or *incomplete* encoding it returns `(RuneError, 1)`. -/
def decodeRune : List Nat → Nat × Nat
  | [] => (runeError, 0)
  | b0 :: rest =>
    if b0 < 0x80 then (b0, 1)
    else
      let sz := runeLen b0
      if sz == 0 then (runeError, 1)
      else match rest with
      | [] => (runeError, 1)
      | b1 :: rest1 =>
        if b1 < acceptLo b0 || acceptHi b0 < b1 then (runeError, 1)
        else if sz == 2 then ((b0 % 0x20) * 0x40 + b1 % 0x40, 2)
        else match rest1 with
        | [] => (runeError, 1)
        | b2 :: rest2 =>
          if b2 < 0x80 || 0xBF < b2 then (runeError, 1)
          else if sz == 3 then
            ((b0 % 0x10) * 0x1000 + (b1 % 0x40) * 0x40 + b2 % 0x40, 3)
          else match rest2 with
          | [] => (runeError, 1)
          | b3 :: _ =>
            if b3 < 0x80 || 0xBF < b3 then (runeError, 1)
            else ((b0 % 0x8) * 0x40000 + (b1 % 0x40) * 0x1000 +
                  (b2 % 0x40) * 0x40 + b3 % 0x40, 4)

/-- Go's `unicode.IsSpace` on a decoded rune value: the Latin-1 cases plus the
`White_Space` ranges above Latin-1. -/
def isSpaceRune (r : Nat) : Bool :=
  r == 9 || r == 10 || r == 11 || r == 12 || r == 13 || r == 32 ||
  r == 0x85 || r == 0xA0 || r == 0x1680 ||
  (0x2000 ≤ r && r ≤ 0x200A) ||
  r == 0x2028 || r == 0x2029 || r == 0x202F || r == 0x205F || r == 0x3000

/-- The per-invocation scanning state of `CountReader` (`res`, `prevSpace`,
`curLineBytes`, `curLineChars`, `asciiMode`, `carry`). -/
structure ScanState where
  res : FileResult
  prevSpace : Bool
  curLineBytes : Nat
  curLineChars : Nat
  asciiMode : Bool
  carry : List Nat
deriving DecidableEq, Repr

/-- The word-boundary update shared by every path of `CountReader`: given the
whitespace classification `sp` of the current byte/rune, increment `Words` on
a space→non-space transition and record `sp` in `prevSpace`. -/
def wordStep (sp : Bool) (st : ScanState) : ScanState :=
  { st with
    res := { st.res with
      words := st.res.words + (if !sp && st.prevSpace then 1 else 0) }
    prevSpace := sp }

/-- The newline update of `CountReader`: increment `Lines`, fold each
in-progress line accumulator into its running maximum (when that metric is
selected), and reset both accumulators. -/
def newlineStep (m : Metrics) (st : ScanState) : ScanState :=
  { st with
    res := { st.res with
      lines := st.res.lines + 1
      maxLineBytes :=
        if m.maxLineBytes && st.res.maxLineBytes < st.curLineBytes then
          st.curLineBytes
        else st.res.maxLineBytes
      maxLineChars :=
        if m.maxLineChars && st.res.maxLineChars < st.curLineChars then
          st.curLineChars
        else st.res.maxLineChars }
    curLineBytes := 0
    curLineChars := 0 }

/-- Advance the in-progress line accumulators by `nb` bytes and one
character, each only when its metric is selected. -/
def lineAdvance (m : Metrics) (nb : Nat) (st : ScanState) : ScanState :=
  { st with
    curLineBytes := st.curLineBytes + (if m.maxLineBytes then nb else 0)
    curLineChars := st.curLineChars + (if m.maxLineChars then 1 else 0) }

/-- One byte of the ASCII fast path of `CountReader` (the body of the
`for _, b := range chunk` loop). -/
def asciiStep (m : Metrics) (st : ScanState) (b : Nat) : ScanState :=
  let st :=
    if m.lines && b == 10 then newlineStep m st
    else lineAdvance m 1 st
  if m.words then wordStep (asciiSpace b) st else st

/-- Increment the `Chars` counter by `k`. -/
def addChars (k : Nat) (st : ScanState) : ScanState :=
  { st with res := { st.res with chars := st.res.chars + k } }

/-- One iteration of the rune-decoding loop of `CountReader`, except for the
advance of the cursor: classify the decoded item at the head of `data` and
update the counters.  An invalid byte sequence (`utf8.DecodeRune` returned
`(RuneError, 1)`) is absorbed as one character of one byte, its raw byte is
still tested for the newline and for ASCII whitespace; a valid rune updates
chars, words, then lines / line accumulators. -/
def decodeStep (m : Metrics) (b : Nat) (rest : List Nat) (st : ScanState) :
    ScanState :=
  let rs := decodeRune (b :: rest)
  if rs.1 == runeError && rs.2 == 1 then
    -- invalid byte; count as one char and advance one
    let st := if m.chars then addChars 1 st else st
    let st := lineAdvance m 1 st
    let st := if m.lines && b == 10 then newlineStep m st else st
    if m.words then wordStep (asciiSpace b) st else st
  else
    let st := if m.chars then addChars 1 st else st
    let st := if m.words then wordStep (isSpaceRune rs.1) st else st
    if m.lines then
      if rs.1 == 10 then newlineStep m st
      else lineAdvance m rs.2 st
    else lineAdvance m rs.2 st

/-- The rune-decoding loop of `CountReader` (`for len(data) > 0`), structured
over a recursion fuel: each iteration applies `decodeStep` to the head of
`data` and drops the consumed bytes (one for an invalid sequence, the
encoded size for a valid rune).  Every iteration consumes at least one byte,
so a fuel of `data.length` (supplied by `decodeLoop`) is always enough. -/
def decodeLoopGo (m : Metrics) : Nat → ScanState → List Nat → ScanState
  | _, st, [] => st
  | 0, st, _ :: _ => st
  | fuel + 1, st, b :: rest =>
    let rs := decodeRune (b :: rest)
    decodeLoopGo m fuel (decodeStep m b rest st) ((b :: rest).drop rs.2)

/-- The rune-decoding loop of `CountReader`: runs until `data` is empty. -/
def decodeLoop (m : Metrics) (st : ScanState) (data : List Nat) : ScanState :=
  decodeLoopGo m data.length st data

/-- One `Read` of `CountReader`'s main loop, processing a chunk of `n > 0`
bytes (an empty chunk is skipped by the `if n > 0` guard): count the raw
bytes, possibly switch out of the ASCII fast path on the first byte ≥ 0x80,
then process the chunk on the fast path or through rune decoding. -/
def processChunk (m : Metrics) (loc : Info) (st : ScanState)
    (chunk : List Nat) : ScanState :=
  if chunk.isEmpty then st
  else
    let st := { st with res := { st.res with bytes := st.res.bytes + chunk.length } }
    let asciiNow :=
      st.asciiMode && !(!loc.isCOrPOSIX && chunk.any (fun b => decide (0x80 ≤ b)))
    if asciiNow then
      let st := chunk.foldl (asciiStep m) st
      if m.chars then addChars chunk.length st else st
    else
      -- UTF-8 / multibyte path: prepend the carry, reset it, decode.
      -- The decode loop consumes every byte, so the trailing
      -- `carry = append(carry, data...)` of the source is a no-op.
      decodeLoop m { st with asciiMode := false, carry := [] }
        (st.carry ++ chunk)

/-- The initial scanning state of `CountReader`: `asciiMode` starts true for
the C/POSIX locale and for the UTF-8 fast path. -/
def initState (loc : Info) : ScanState :=
  { res := {}
    prevSpace := true
    curLineBytes := 0
    curLineChars := 0
    asciiMode := loc.isCOrPOSIX || loc.isUTF8
    carry := [] }

/-- The end-of-stream finalization of `CountReader`: when no read error was
recorded, fold the in-progress line accumulators into the max-line results
one last time (capturing a trailing line with no terminator). -/
def finalizeRes (m : Metrics) (st : ScanState) : FileResult :=
  if st.res.err then st.res
  else
    { st.res with
      maxLineBytes :=
        if m.maxLineBytes && st.res.maxLineBytes < st.curLineBytes then
          st.curLineBytes
        else st.res.maxLineBytes
      maxLineChars :=
        if m.maxLineChars && st.res.maxLineChars < st.curLineChars then
          st.curLineChars
        else st.res.maxLineChars }

/-- The scanning state of `CountReader` after consuming a given list of
chunks. -/
def runChunks (m : Metrics) (loc : Info) (chunks : List (List Nat)) : ScanState :=
  chunks.foldl (processChunk m loc) (initState loc)

/-- `CountReader` from `pkg/wc/wc.go`, applied to the stream delivering the
given chunks and then either end-of-stream (`readErr = false`) or a read
error (`readErr = true`).  On a read error the accumulated result is returned
with the error attached and without the max-line finalization. -/
def CountReader (m : Metrics) (opt : Options) (chunks : List (List Nat))
    (readErr : Bool) : FileResult :=
  let st := runChunks m opt.locale chunks
  if readErr then { st.res with err := true }
  else finalizeRes m st

/-- Split a byte list into successive chunks of `sz` bytes (the chunk
sequence `bufio.Reader` over `bytesReader` delivers for buffer size
`sz ≥ 1`). -/
def chunksOfGo (sz : Nat) : Nat → List Nat → List (List Nat)
  | _, [] => []
  | 0, _ :: _ => []
  | fuel + 1, b :: l =>
    if sz == 0 then []
    else (b :: l).take sz :: chunksOfGo sz fuel ((b :: l).drop sz)

/-- Split a byte list into successive chunks of `sz` bytes (the chunk
sequence `bufio.Reader` over `bytesReader` delivers for buffer size
`sz ≥ 1`), structured over a recursion fuel of `l.length`, which is always
enough since `sz ≥ 1` consumes at least one byte per chunk. -/
def chunksOf (sz : Nat) (l : List Nat) : List (List Nat) :=
  chunksOfGo sz l.length l

/-- `CountBytes` from `pkg/wc/wc.go`: count an in-memory byte list by feeding
it to `CountReader` in `BufferSize`-sized chunks. -/
def CountBytes (b : List Nat) (m : Metrics) (opt : Options) : FileResult :=
  CountReader m opt (chunksOf opt.bufferSize b) false

/-- The same scan with the ASCII fast path disabled from the start, i.e.
every byte goes through full rune decoding (the `asciiMode` flag starts
false). -/
def CountReaderForced (m : Metrics) (opt : Options) (chunks : List (List Nat))
    (readErr : Bool) : FileResult :=
  let st := chunks.foldl (processChunk m opt.locale)
    { initState opt.locale with asciiMode := false }
  if readErr then { st.res with err := true }
  else finalizeRes m st

/-! The aggregation loop of `cmd/go_wc/main.go`: totals sum
Lines/Words/Bytes/Chars and take running maxima of the max-line metrics over
the results without errors; a result carrying an error is skipped.  Any error
result forces exit code 1. -/

/-- Fold one released result into the running totals (`main.go`, the
`for _, r := range all` loop). -/
def addTotals (t r : FileResult) : FileResult :=
  if r.err then t
  else
    { t with
      lines := t.lines + r.lines
      words := t.words + r.words
      bytes := t.bytes + r.bytes
      chars := t.chars + r.chars
      maxLineBytes :=
        if t.maxLineBytes < r.maxLineBytes then r.maxLineBytes
        else t.maxLineBytes
      maxLineChars :=
        if t.maxLineChars < r.maxLineChars then r.maxLineChars
        else t.maxLineChars }

/-- The totals accumulated over a list of released results. -/
def totalsOf (rs : List FileResult) : FileResult :=
  rs.foldl addTotals {}

/-- The overall completion status: 1 as soon as any result carries an error,
0 otherwise (`exitCode` in `main.go`). -/
def exitCodeOf (rs : List FileResult) : Nat :=
  if rs.any (fun r => r.err) then 1 else 0

/-! The result reassembly loop of `main.go`: arriving results are stored in a
map keyed by their sequence index (`pending`), and a cursor `next` releases
them in ascending index order.  The Go map is modelled as an association
list of results keyed by their `index` field. -/

/-- Lookup of `pending[i]` in the map model. -/
def findByIdx (i : Nat) : List FileResult → Option FileResult
  | [] => none
  | r :: rs => if r.index == i then some r else findByIdx i rs

/-- `delete(pending, i)` in the map model (the key occurs at most once). -/
def removeByIdx (i : Nat) : List FileResult → List FileResult
  | [] => []
  | r :: rs => if r.index == i then rs else r :: removeByIdx i rs

/-- `pending[res.Index] = res` in the map model: replace the entry with the
same key, or add the new entry. -/
def mapInsert (r : FileResult) : List FileResult → List FileResult
  | [] => [r]
  | x :: xs => if x.index == r.index then r :: xs else x :: mapInsert r xs

/-- The inner release loop of `main.go`: while `pending[next]` exists,
append it to `all`, delete it, and advance `next`.  Each iteration removes
one pending entry, so a fuel of `pending.length` is always enough. -/
def drainGo : Nat → List FileResult → Nat → List FileResult →
    List FileResult × Nat × List FileResult
  | 0, pending, next, acc => (pending, next, acc)
  | fuel + 1, pending, next, acc =>
    match findByIdx next pending with
    | some r => drainGo fuel (removeByIdx next pending) (next + 1) (acc ++ [r])
    | none => (pending, next, acc)

/-- Processing of one arriving result in the collection loop of `main.go`:
insert it into `pending`, then release every consecutive ready result. -/
def collectStep (s : List FileResult × Nat × List FileResult)
    (r : FileResult) : List FileResult × Nat × List FileResult :=
  let pending := mapInsert r s.1
  drainGo pending.length pending s.2.1 s.2.2

/-- The released (`all`) list produced by the collection loop of `main.go`
when the worker results arrive in the given order. -/
def collect (arrivals : List FileResult) : List FileResult :=
  (arrivals.foldl collectStep ([], 0, [])).2.2

/-! The stdin single-read coordination of `main.go`: `stdinOnce.Do` reads
standard input to completion exactly once and caches `(stdinData, stdinErr)`;
every job named `-` then counts the cached bytes, or propagates the cached
error.  An execution of the worker pool is modelled as the jobs being
processed in an arbitrary sequential order: `sync.Once` makes the read-and-
cache step atomic, and each job's remaining work touches no shared state, so
every interleaving of the pool acts like some such order. -/

/-- The shared stdin state: the memoized outcome of the one-time read
(`stdinData` and `stdinErr`, absent until the read ran), plus a count of how
often the underlying read of standard input was performed. -/
structure StdinState where
  cached : Option (List Nat × Bool)
  reads : Nat
deriving DecidableEq, Repr

/-- The result a worker produces for a job named `-` from a captured stdin
outcome `(data, errFlag)`: an error-only result if the read failed, otherwise
`CountBytes` of the captured bytes, with the job's sequence index. -/
def dashResult (m : Metrics) (opt : Options) (c : List Nat × Bool) (i : Nat) :
    FileResult :=
  if c.2 then { index := i, err := true }
  else { CountBytes c.1 m opt with index := i }

/-- One job of the worker loop in `main.go`.  `src` is the content and
outcome standard input would deliver to the one-time read; `fileCount` is the
oracle for opening and counting a named file (external collaborators). -/
def runJob (m : Metrics) (opt : Options) (src : List Nat × Bool)
    (fileCount : String → FileResult) (st : StdinState) (j : Nat × String) :
    StdinState × FileResult :=
  if j.2 = "-" then
    match st.cached with
    | none => ({ cached := some src, reads := st.reads + 1 }, dashResult m opt src j.1)
    | some c => (st, dashResult m opt c j.1)
  else (st, { fileCount j.2 with index := j.1 })

/-- Run the indexed jobs in the given order, threading the shared stdin
state and collecting each job's result. -/
def runJobs (m : Metrics) (opt : Options) (src : List Nat × Bool)
    (fileCount : String → FileResult) :
    StdinState → List (Nat × String) → StdinState × List FileResult
  | st, [] => (st, [])
  | st, j :: js =>
    let p := runJob m opt src fileCount st j
    let q := runJobs m opt src fileCount p.1 js
    (q.1, p.2 :: q.2)

/-- Whether some job in the list is the standard-input locator `-`. -/
def hasDash : List (Nat × String) → Bool
  | [] => false
  | j :: js => if j.2 = "-" then true else hasDash js

/-! ### Basic facts about `decodeRune` -/

theorem decodeRune_snd_pos (b : Nat) (rest : List Nat) :
    1 ≤ (decodeRune (b :: rest)).2 := by
  unfold decodeRune
  repeat' first
  | (split <;> try simp)
  | simp
  all_goals simp_all

theorem decodeRune_snd_le (b : Nat) (rest : List Nat) :
    (decodeRune (b :: rest)).2 ≤ (b :: rest).length := by
  unfold decodeRune
  repeat' first
  | (split <;> try simp)
  | simp
  all_goals simp_all

theorem decodeRune_ascii (b : Nat) (rest : List Nat) (h : b < 0x80) :
    decodeRune (b :: rest) = (b, 1) := by
  simp [decodeRune, h]

theorem decodeRune_invalid_high (b : Nat) (rest : List Nat)
    (h : decodeRune (b :: rest) = (runeError, 1)) : 0x80 ≤ b := by
  by_contra h'
  push_neg at h'
  rw [decodeRune_ascii b rest h'] at h
  have : b = runeError := congrArg Prod.fst h
  simp [runeError] at this
  omega

theorem runeLen_cases (b : Nat) (h : 0x80 ≤ b) :
    (runeLen b = 0 ∧ (b < 0xC2 ∨ 0xF5 ≤ b))
    ∨ (runeLen b = 2 ∧ 0xC2 ≤ b ∧ b < 0xE0)
    ∨ (runeLen b = 3 ∧ 0xE0 ≤ b ∧ b < 0xF0)
    ∨ (runeLen b = 4 ∧ 0xF0 ≤ b ∧ b < 0xF5) := by
  unfold runeLen
  repeat' split
  all_goals omega

theorem acceptLo_ge (b : Nat) : 0x80 ≤ acceptLo b := by
  unfold acceptLo; repeat' split
  all_goals omega

theorem acceptHi_le (b : Nat) : acceptHi b ≤ 0xBF := by
  unfold acceptHi; repeat' split
  all_goals omega

/-- Full classification of `decodeRune` on a non-empty input: either the head
byte is ASCII and decodes to itself with size 1, or the decode fails with
`(RuneError, 1)`, or at least two bytes — all of them ≥ 0x80 — are consumed
and the decoded rune is ≥ 0x80. -/
theorem decodeRune_cases (b : Nat) (rest : List Nat) :
    (decodeRune (b :: rest) = (b, 1) ∧ b < 0x80)
    ∨ decodeRune (b :: rest) = (runeError, 1)
    ∨ (2 ≤ (decodeRune (b :: rest)).2 ∧ 0x80 ≤ (decodeRune (b :: rest)).1 ∧
        ∀ x ∈ (b :: rest).take (decodeRune (b :: rest)).2, 0x80 ≤ x) := by
  by_cases hb : b < 0x80
  · exact Or.inl ⟨decodeRune_ascii b rest hb, hb⟩
  · push_neg at hb
    rcases runeLen_cases b hb with ⟨h0, _⟩ | ⟨h2, hbl, hbu⟩ | ⟨h3, hbl, hbu⟩ | ⟨h4, hbl, hbu⟩
    · refine Or.inr (Or.inl ?_)
      unfold decodeRune
      simp [Nat.not_lt.mpr hb, h0]
    · cases rest with
      | nil =>
        refine Or.inr (Or.inl ?_)
        unfold decodeRune
        simp [Nat.not_lt.mpr hb, h2]
      | cons b1 rest1 =>
        by_cases hacc : b1 < acceptLo b ∨ acceptHi b < b1
        · refine Or.inr (Or.inl ?_)
          unfold decodeRune
          simp [Nat.not_lt.mpr hb, h2, hacc]
        · refine Or.inr (Or.inr ?_)
          have hb1 : 0x80 ≤ b1 := le_trans (acceptLo_ge b) (by omega)
          unfold decodeRune
          simp [Nat.not_lt.mpr hb, h2, hacc, List.take_succ_cons]
          refine ⟨by omega, hb, hb1⟩
    · cases rest with
      | nil =>
        refine Or.inr (Or.inl ?_)
        unfold decodeRune
        simp [Nat.not_lt.mpr hb, h3]
      | cons b1 rest1 =>
        by_cases hacc : b1 < acceptLo b ∨ acceptHi b < b1
        · refine Or.inr (Or.inl ?_)
          unfold decodeRune
          simp [Nat.not_lt.mpr hb, h3, hacc]
        · have hb1 : 0x80 ≤ b1 := le_trans (acceptLo_ge b) (by omega)
          cases rest1 with
          | nil =>
            refine Or.inr (Or.inl ?_)
            unfold decodeRune
            simp [Nat.not_lt.mpr hb, h3, hacc]
          | cons b2 rest2 =>
            by_cases hc2 : b2 < 0x80 ∨ 0xBF < b2
            · refine Or.inr (Or.inl ?_)
              unfold decodeRune
              simp [Nat.not_lt.mpr hb, h3, hacc, hc2]
            · refine Or.inr (Or.inr ?_)
              unfold decodeRune
              simp [Nat.not_lt.mpr hb, h3, hacc, hc2, List.take_succ_cons]
              push_neg at hacc hc2
              have hHi := acceptHi_le b
              have hsp : b = 0xE0 ∧ acceptLo b = 0xA0 ∨ b ≠ 0xE0 ∧ acceptLo b = 0x80 := by
                by_cases he : b = 0xE0
                · exact Or.inl ⟨he, by simp [acceptLo, he]⟩
                · exact Or.inr ⟨he, by simp [acceptLo, he]; omega⟩
              omega
    · cases rest with
      | nil =>
        refine Or.inr (Or.inl ?_)
        unfold decodeRune
        simp [Nat.not_lt.mpr hb, h4]
      | cons b1 rest1 =>
        by_cases hacc : b1 < acceptLo b ∨ acceptHi b < b1
        · refine Or.inr (Or.inl ?_)
          unfold decodeRune
          simp [Nat.not_lt.mpr hb, h4, hacc]
        · have hb1 : 0x80 ≤ b1 := le_trans (acceptLo_ge b) (by omega)
          cases rest1 with
          | nil =>
            refine Or.inr (Or.inl ?_)
            unfold decodeRune
            simp [Nat.not_lt.mpr hb, h4, hacc]
          | cons b2 rest2 =>
            by_cases hc2 : b2 < 0x80 ∨ 0xBF < b2
            · refine Or.inr (Or.inl ?_)
              unfold decodeRune
              simp [Nat.not_lt.mpr hb, h4, hacc, hc2]
            · cases rest2 with
              | nil =>
                refine Or.inr (Or.inl ?_)
                unfold decodeRune
                simp [Nat.not_lt.mpr hb, h4, hacc, hc2]
              | cons b3 rest3 =>
                by_cases hc3 : b3 < 0x80 ∨ 0xBF < b3
                · refine Or.inr (Or.inl ?_)
                  unfold decodeRune
                  simp [Nat.not_lt.mpr hb, h4, hacc, hc2, hc3]
                · refine Or.inr (Or.inr ?_)
                  unfold decodeRune
                  simp [Nat.not_lt.mpr hb, h4, hacc, hc2, hc3, List.take_succ_cons]
                  push_neg at hacc hc2 hc3
                  have hHi := acceptHi_le b
                  have hsp : b = 0xF0 ∧ acceptLo b = 0x90 ∨ b ≠ 0xF0 ∧ acceptLo b = 0x80 := by
                    by_cases he : b = 0xF0
                    · exact Or.inl ⟨he, by simp [acceptLo, he]⟩
                    · exact Or.inr ⟨he, by simp [acceptLo, he]; omega⟩
                  omega

/-- In a successful decode, the consumed bytes contain the newline byte
exactly when the decoded rune is the newline. -/
theorem decodeRune_count10 (b : Nat) (rest : List Nat)
    (h : ¬((decodeRune (b :: rest)).1 = runeError ∧ (decodeRune (b :: rest)).2 = 1)) :
    ((b :: rest).take (decodeRune (b :: rest)).2).count 10 =
      (if (decodeRune (b :: rest)).1 = 10 then 1 else 0) := by
  rcases decodeRune_cases b rest with ⟨he, _⟩ | he | ⟨_, hge, hmem⟩
  · rw [he]
    simp [List.count_cons]
  · exact absurd ⟨congrArg Prod.fst he, congrArg Prod.snd he⟩ h
  · have h10 : (decodeRune (b :: rest)).1 ≠ 10 := by omega
    rw [if_neg h10, List.count_eq_zero]
    intro hmem10
    have := hmem 10 hmem10
    omega

/-! ### Field preservation through the scanning steps -/

theorem decodeStep_asciiMode (m : Metrics) (b : Nat) (rest : List Nat)
    (st : ScanState) : (decodeStep m b rest st).asciiMode = st.asciiMode := by
  simp only [decodeStep, wordStep, newlineStep, lineAdvance, addChars,
    apply_ite (fun s : ScanState => s.asciiMode)]
  repeat' split
  all_goals simp_all

theorem decodeStep_carry (m : Metrics) (b : Nat) (rest : List Nat)
    (st : ScanState) : (decodeStep m b rest st).carry = st.carry := by
  simp only [decodeStep, wordStep, newlineStep, lineAdvance, addChars,
    apply_ite (fun s : ScanState => s.carry)]
  repeat' split
  all_goals simp_all

theorem decodeStep_err (m : Metrics) (b : Nat) (rest : List Nat)
    (st : ScanState) : (decodeStep m b rest st).res.err = st.res.err := by
  simp only [decodeStep, wordStep, newlineStep, lineAdvance, addChars,
    apply_ite (fun s : ScanState => s.res.err)]
  repeat' split
  all_goals simp_all

theorem decodeStep_bytes (m : Metrics) (b : Nat) (rest : List Nat)
    (st : ScanState) : (decodeStep m b rest st).res.bytes = st.res.bytes := by
  simp only [decodeStep, wordStep, newlineStep, lineAdvance, addChars,
    apply_ite (fun s : ScanState => s.res.bytes)]
  repeat' split
  all_goals simp_all

theorem decodeStep_chars (m : Metrics) (b : Nat) (rest : List Nat)
    (st : ScanState) : (decodeStep m b rest st).res.chars =
      st.res.chars + (if m.chars then 1 else 0) := by
  simp only [decodeStep, wordStep, newlineStep, lineAdvance, addChars,
    apply_ite (fun s : ScanState => s.res.chars)]
  repeat' split
  all_goals simp_all

theorem decodeStep_words_of_not (m : Metrics) (b : Nat) (rest : List Nat)
    (st : ScanState) (h : m.words = false) :
    (decodeStep m b rest st).res.words = st.res.words := by
  simp only [decodeStep, wordStep, newlineStep, lineAdvance, addChars, h,
    apply_ite (fun s : ScanState => s.res.words)]
  repeat' split
  all_goals simp_all

theorem decodeStep_lines_of_not (m : Metrics) (b : Nat) (rest : List Nat)
    (st : ScanState) (h : m.lines = false) :
    (decodeStep m b rest st).res.lines = st.res.lines := by
  simp only [decodeStep, wordStep, newlineStep, lineAdvance, addChars, h,
    apply_ite (fun s : ScanState => s.res.lines)]
  repeat' split
  all_goals simp_all

theorem decodeStep_maxLineBytes_of_not (m : Metrics) (b : Nat) (rest : List Nat)
    (st : ScanState) (h : m.maxLineBytes = false) :
    (decodeStep m b rest st).res.maxLineBytes = st.res.maxLineBytes := by
  simp only [decodeStep, wordStep, newlineStep, lineAdvance, addChars, h,
    apply_ite (fun s : ScanState => s.res.maxLineBytes)]
  repeat' split
  all_goals simp_all

theorem decodeStep_maxLineChars_of_not (m : Metrics) (b : Nat) (rest : List Nat)
    (st : ScanState) (h : m.maxLineChars = false) :
    (decodeStep m b rest st).res.maxLineChars = st.res.maxLineChars := by
  simp only [decodeStep, wordStep, newlineStep, lineAdvance, addChars, h,
    apply_ite (fun s : ScanState => s.res.maxLineChars)]
  repeat' split
  all_goals simp_all

theorem asciiStep_asciiMode (m : Metrics) (st : ScanState) (b : Nat) :
    (asciiStep m st b).asciiMode = st.asciiMode := by
  simp only [asciiStep, wordStep, newlineStep, lineAdvance,
    apply_ite (fun s : ScanState => s.asciiMode)]
  repeat' split
  all_goals simp_all

theorem asciiStep_carry (m : Metrics) (st : ScanState) (b : Nat) :
    (asciiStep m st b).carry = st.carry := by
  simp only [asciiStep, wordStep, newlineStep, lineAdvance,
    apply_ite (fun s : ScanState => s.carry)]
  repeat' split
  all_goals simp_all

theorem asciiStep_err (m : Metrics) (st : ScanState) (b : Nat) :
    (asciiStep m st b).res.err = st.res.err := by
  simp only [asciiStep, wordStep, newlineStep, lineAdvance,
    apply_ite (fun s : ScanState => s.res.err)]
  repeat' split
  all_goals simp_all

theorem asciiStep_bytes (m : Metrics) (st : ScanState) (b : Nat) :
    (asciiStep m st b).res.bytes = st.res.bytes := by
  simp only [asciiStep, wordStep, newlineStep, lineAdvance,
    apply_ite (fun s : ScanState => s.res.bytes)]
  repeat' split
  all_goals simp_all

theorem asciiStep_chars (m : Metrics) (st : ScanState) (b : Nat) :
    (asciiStep m st b).res.chars = st.res.chars := by
  simp only [asciiStep, wordStep, newlineStep, lineAdvance,
    apply_ite (fun s : ScanState => s.res.chars)]
  repeat' split
  all_goals simp_all

theorem asciiStep_words_of_not (m : Metrics) (st : ScanState) (b : Nat)
    (h : m.words = false) : (asciiStep m st b).res.words = st.res.words := by
  simp only [asciiStep, wordStep, newlineStep, lineAdvance, h,
    apply_ite (fun s : ScanState => s.res.words)]
  repeat' split
  all_goals simp_all

theorem asciiStep_lines (m : Metrics) (st : ScanState) (b : Nat) :
    (asciiStep m st b).res.lines =
      st.res.lines + (if m.lines && b == 10 then 1 else 0) := by
  simp only [asciiStep, wordStep, newlineStep, lineAdvance,
    apply_ite (fun s : ScanState => s.res.lines)]
  repeat' split
  all_goals simp_all

theorem asciiStep_maxLineBytes_of_not (m : Metrics) (st : ScanState) (b : Nat)
    (h : m.maxLineBytes = false) :
    (asciiStep m st b).res.maxLineBytes = st.res.maxLineBytes := by
  simp only [asciiStep, wordStep, newlineStep, lineAdvance, h,
    apply_ite (fun s : ScanState => s.res.maxLineBytes)]
  repeat' split
  all_goals simp_all

theorem asciiStep_maxLineChars_of_not (m : Metrics) (st : ScanState) (b : Nat)
    (h : m.maxLineChars = false) :
    (asciiStep m st b).res.maxLineChars = st.res.maxLineChars := by
  simp only [asciiStep, wordStep, newlineStep, lineAdvance, h,
    apply_ite (fun s : ScanState => s.res.maxLineChars)]
  repeat' split
  all_goals simp_all


/-! ### The decode loop -/

theorem decodeLoopGo_asciiMode (m : Metrics) :
    ∀ (fuel : Nat) (st : ScanState) (data : List Nat),
    (decodeLoopGo m fuel st data).asciiMode = st.asciiMode := by
  intro fuel
  induction fuel with
  | zero => intro st data; cases data <;> rfl
  | succ n ih =>
    intro st data
    cases data with
    | nil => rfl
    | cons b rest =>
      simp only [decodeLoopGo]
      rw [ih, decodeStep_asciiMode]

theorem decodeLoopGo_carry (m : Metrics) :
    ∀ (fuel : Nat) (st : ScanState) (data : List Nat),
    (decodeLoopGo m fuel st data).carry = st.carry := by
  intro fuel
  induction fuel with
  | zero => intro st data; cases data <;> rfl
  | succ n ih =>
    intro st data
    cases data with
    | nil => rfl
    | cons b rest =>
      simp only [decodeLoopGo]
      rw [ih, decodeStep_carry]

theorem decodeLoopGo_err (m : Metrics) :
    ∀ (fuel : Nat) (st : ScanState) (data : List Nat),
    (decodeLoopGo m fuel st data).res.err = st.res.err := by
  intro fuel
  induction fuel with
  | zero => intro st data; cases data <;> rfl
  | succ n ih =>
    intro st data
    cases data with
    | nil => rfl
    | cons b rest =>
      simp only [decodeLoopGo]
      rw [ih, decodeStep_err]

theorem decodeLoopGo_bytes (m : Metrics) :
    ∀ (fuel : Nat) (st : ScanState) (data : List Nat),
    (decodeLoopGo m fuel st data).res.bytes = st.res.bytes := by
  intro fuel
  induction fuel with
  | zero => intro st data; cases data <;> rfl
  | succ n ih =>
    intro st data
    cases data with
    | nil => rfl
    | cons b rest =>
      simp only [decodeLoopGo]
      rw [ih, decodeStep_bytes]

theorem decodeLoopGo_words_of_not (m : Metrics) (h : m.words = false) :
    ∀ (fuel : Nat) (st : ScanState) (data : List Nat),
    (decodeLoopGo m fuel st data).res.words = st.res.words := by
  intro fuel
  induction fuel with
  | zero => intro st data; cases data <;> rfl
  | succ n ih =>
    intro st data
    cases data with
    | nil => rfl
    | cons b rest =>
      simp only [decodeLoopGo]
      rw [ih, decodeStep_words_of_not m b rest st h]

theorem decodeLoopGo_chars_of_not (m : Metrics) (h : m.chars = false) :
    ∀ (fuel : Nat) (st : ScanState) (data : List Nat),
    (decodeLoopGo m fuel st data).res.chars = st.res.chars := by
  intro fuel
  induction fuel with
  | zero => intro st data; cases data <;> rfl
  | succ n ih =>
    intro st data
    cases data with
    | nil => rfl
    | cons b rest =>
      simp only [decodeLoopGo]
      rw [ih, decodeStep_chars, h]
      simp

theorem decodeLoopGo_maxLineBytes_of_not (m : Metrics) (h : m.maxLineBytes = false) :
    ∀ (fuel : Nat) (st : ScanState) (data : List Nat),
    (decodeLoopGo m fuel st data).res.maxLineBytes = st.res.maxLineBytes := by
  intro fuel
  induction fuel with
  | zero => intro st data; cases data <;> rfl
  | succ n ih =>
    intro st data
    cases data with
    | nil => rfl
    | cons b rest =>
      simp only [decodeLoopGo]
      rw [ih, decodeStep_maxLineBytes_of_not m b rest st h]

theorem decodeLoopGo_maxLineChars_of_not (m : Metrics) (h : m.maxLineChars = false) :
    ∀ (fuel : Nat) (st : ScanState) (data : List Nat),
    (decodeLoopGo m fuel st data).res.maxLineChars = st.res.maxLineChars := by
  intro fuel
  induction fuel with
  | zero => intro st data; cases data <;> rfl
  | succ n ih =>
    intro st data
    cases data with
    | nil => rfl
    | cons b rest =>
      simp only [decodeLoopGo]
      rw [ih, decodeStep_maxLineChars_of_not m b rest st h]

theorem decodeStep_lines_invalid (m : Metrics) (b : Nat) (rest : List Nat)
    (st : ScanState)
    (h : ((decodeRune (b :: rest)).1 == runeError && (decodeRune (b :: rest)).2 == 1) = true) :
    (decodeStep m b rest st).res.lines = st.res.lines := by
  have hpair : decodeRune (b :: rest) = (runeError, 1) := by
    simp only [Bool.and_eq_true, beq_iff_eq] at h
    exact Prod.ext h.1 h.2
  have hb : 0x80 ≤ b := decodeRune_invalid_high b rest hpair
  have hb10 : (b == 10) = false := by simp; omega
  simp only [decodeStep, h, if_true, wordStep, newlineStep, lineAdvance,
    addChars, hb10, Bool.and_false,
    apply_ite (fun s : ScanState => s.res.lines)]
  repeat' split
  all_goals simp_all

theorem decodeStep_lines_valid (m : Metrics) (b : Nat) (rest : List Nat)
    (st : ScanState)
    (h : ((decodeRune (b :: rest)).1 == runeError && (decodeRune (b :: rest)).2 == 1) = false) :
    (decodeStep m b rest st).res.lines =
      st.res.lines +
        (if m.lines && (decodeRune (b :: rest)).1 == 10 then 1 else 0) := by
  simp only [decodeStep, h, wordStep, newlineStep, lineAdvance, addChars,
    apply_ite (fun s : ScanState => s.res.lines)]
  repeat' split
  all_goals simp_all

theorem decodeLoopGo_lines (m : Metrics) :
    ∀ (fuel : Nat) (st : ScanState) (data : List Nat), data.length ≤ fuel →
    (decodeLoopGo m fuel st data).res.lines =
      st.res.lines + (if m.lines then data.count 10 else 0) := by
  intro fuel
  induction fuel with
  | zero =>
    intro st data h
    have hdata : data = [] := List.eq_nil_of_length_eq_zero (Nat.le_zero.mp h)
    subst hdata
    simp [decodeLoopGo]
  | succ n ih =>
    intro st data h
    cases data with
    | nil => simp [decodeLoopGo]
    | cons b rest =>
      simp only [decodeLoopGo]
      by_cases hv : ((decodeRune (b :: rest)).1 == runeError && (decodeRune (b :: rest)).2 == 1) = true
      · have hpair : decodeRune (b :: rest) = (runeError, 1) := by
          simp only [Bool.and_eq_true, beq_iff_eq] at hv
          exact Prod.ext hv.1 hv.2
        have hb : 0x80 ≤ b := decodeRune_invalid_high b rest hpair
        have hdrop : (b :: rest).drop (decodeRune (b :: rest)).2 = rest := by
          rw [hpair]
          rfl
        rw [hdrop, ih (decodeStep m b rest st) rest (by simp at h; omega),
          decodeStep_lines_invalid m b rest st hv]
        have hcnt : (b :: rest).count 10 = rest.count 10 := by
          rw [List.count_cons]
          simp
          omega
        rw [hcnt]
      · have hv' : ((decodeRune (b :: rest)).1 == runeError && (decodeRune (b :: rest)).2 == 1) = false :=
          Bool.not_eq_true _ |>.mp hv
        have hpos := decodeRune_snd_pos b rest
        have hlen : ((b :: rest).drop (decodeRune (b :: rest)).2).length ≤ n := by
          simp only [List.length_drop, List.length_cons]
          simp only [List.length_cons] at h
          omega
        rw [ih (decodeStep m b rest st) _ hlen,
          decodeStep_lines_valid m b rest st hv']
        have hcnt10 := decodeRune_count10 b rest (by
          simp only [Bool.and_eq_true, beq_iff_eq] at hv
          exact fun hc => hv ⟨by simp [hc.1], by simp [hc.2]⟩)
        have hsplit : (b :: rest).count 10 =
            ((b :: rest).take (decodeRune (b :: rest)).2).count 10 +
            ((b :: rest).drop (decodeRune (b :: rest)).2).count 10 := by
          conv_lhs => rw [← List.take_append_drop (decodeRune (b :: rest)).2 (b :: rest)]
          rw [List.count_append]
        rw [hsplit, hcnt10]
        by_cases hml : m.lines
        · by_cases h10 : (decodeRune (b :: rest)).1 = 10 <;>
            simp [hml, h10] <;> omega
        · simp [hml]

/-! ### The ASCII fast path loop -/

theorem foldl_asciiStep_asciiMode (m : Metrics) :
    ∀ (chunk : List Nat) (st : ScanState),
    (chunk.foldl (asciiStep m) st).asciiMode = st.asciiMode := by
  intro chunk
  induction chunk with
  | nil => intro st; rfl
  | cons b rest ih =>
    intro st
    rw [List.foldl_cons, ih, asciiStep_asciiMode]

theorem foldl_asciiStep_carry (m : Metrics) :
    ∀ (chunk : List Nat) (st : ScanState),
    (chunk.foldl (asciiStep m) st).carry = st.carry := by
  intro chunk
  induction chunk with
  | nil => intro st; rfl
  | cons b rest ih =>
    intro st
    rw [List.foldl_cons, ih, asciiStep_carry]

theorem foldl_asciiStep_err (m : Metrics) :
    ∀ (chunk : List Nat) (st : ScanState),
    (chunk.foldl (asciiStep m) st).res.err = st.res.err := by
  intro chunk
  induction chunk with
  | nil => intro st; rfl
  | cons b rest ih =>
    intro st
    rw [List.foldl_cons, ih, asciiStep_err]

theorem foldl_asciiStep_bytes (m : Metrics) :
    ∀ (chunk : List Nat) (st : ScanState),
    (chunk.foldl (asciiStep m) st).res.bytes = st.res.bytes := by
  intro chunk
  induction chunk with
  | nil => intro st; rfl
  | cons b rest ih =>
    intro st
    rw [List.foldl_cons, ih, asciiStep_bytes]

theorem foldl_asciiStep_chars (m : Metrics) :
    ∀ (chunk : List Nat) (st : ScanState),
    (chunk.foldl (asciiStep m) st).res.chars = st.res.chars := by
  intro chunk
  induction chunk with
  | nil => intro st; rfl
  | cons b rest ih =>
    intro st
    rw [List.foldl_cons, ih, asciiStep_chars]

theorem foldl_asciiStep_words_of_not (m : Metrics) (h : m.words = false) :
    ∀ (chunk : List Nat) (st : ScanState),
    (chunk.foldl (asciiStep m) st).res.words = st.res.words := by
  intro chunk
  induction chunk with
  | nil => intro st; rfl
  | cons b rest ih =>
    intro st
    rw [List.foldl_cons, ih, asciiStep_words_of_not m st b h]

theorem foldl_asciiStep_maxLineBytes_of_not (m : Metrics)
    (h : m.maxLineBytes = false) :
    ∀ (chunk : List Nat) (st : ScanState),
    (chunk.foldl (asciiStep m) st).res.maxLineBytes = st.res.maxLineBytes := by
  intro chunk
  induction chunk with
  | nil => intro st; rfl
  | cons b rest ih =>
    intro st
    rw [List.foldl_cons, ih, asciiStep_maxLineBytes_of_not m st b h]

theorem foldl_asciiStep_maxLineChars_of_not (m : Metrics)
    (h : m.maxLineChars = false) :
    ∀ (chunk : List Nat) (st : ScanState),
    (chunk.foldl (asciiStep m) st).res.maxLineChars = st.res.maxLineChars := by
  intro chunk
  induction chunk with
  | nil => intro st; rfl
  | cons b rest ih =>
    intro st
    rw [List.foldl_cons, ih, asciiStep_maxLineChars_of_not m st b h]

theorem foldl_asciiStep_lines (m : Metrics) :
    ∀ (chunk : List Nat) (st : ScanState),
    (chunk.foldl (asciiStep m) st).res.lines =
      st.res.lines + (if m.lines then chunk.count 10 else 0) := by
  intro chunk
  induction chunk with
  | nil => intro st; simp
  | cons b rest ih =>
    intro st
    rw [List.foldl_cons, ih, asciiStep_lines, List.count_cons]
    by_cases hml : m.lines
    · by_cases h10 : b = 10 <;> simp [hml, h10] <;> omega
    · simp [hml]


/-! ### Chunk processing -/

theorem processChunk_nil (m : Metrics) (loc : Info) (st : ScanState) :
    processChunk m loc st [] = st := by
  simp [processChunk]

theorem processChunk_bytes (m : Metrics) (loc : Info) (st : ScanState)
    (chunk : List Nat) :
    (processChunk m loc st chunk).res.bytes = st.res.bytes + chunk.length := by
  cases chunk with
  | nil => simp [processChunk]
  | cons c cs =>
    simp only [processChunk, List.isEmpty_cons, Bool.false_eq_true, if_false]
    split
    · by_cases hc : m.chars <;>
        simp [hc, addChars, foldl_asciiStep_bytes, asciiStep_bytes]
    · simp [decodeLoop, decodeLoopGo_bytes]

theorem processChunk_err (m : Metrics) (loc : Info) (st : ScanState)
    (chunk : List Nat) :
    (processChunk m loc st chunk).res.err = st.res.err := by
  cases chunk with
  | nil => simp [processChunk]
  | cons c cs =>
    simp only [processChunk, List.isEmpty_cons, Bool.false_eq_true, if_false]
    split
    · by_cases hc : m.chars <;>
        simp [hc, addChars, foldl_asciiStep_err, asciiStep_err]
    · simp [decodeLoop, decodeLoopGo_err]

theorem processChunk_carry (m : Metrics) (loc : Info) (st : ScanState)
    (chunk : List Nat) (h : st.carry = []) :
    (processChunk m loc st chunk).carry = [] := by
  cases chunk with
  | nil => simpa [processChunk] using h
  | cons c cs =>
    simp only [processChunk, List.isEmpty_cons, Bool.false_eq_true, if_false]
    split
    · by_cases hc : m.chars <;>
        simp [hc, addChars, foldl_asciiStep_carry, asciiStep_carry, h]
    · simp [decodeLoop, decodeLoopGo_carry]

theorem processChunk_asciiMode (m : Metrics) (loc : Info) (st : ScanState)
    (chunk : List Nat) :
    (processChunk m loc st chunk).asciiMode =
      if chunk.isEmpty then st.asciiMode
      else st.asciiMode &&
        !(!loc.isCOrPOSIX && chunk.any (fun b => decide (0x80 ≤ b))) := by
  cases chunk with
  | nil => simp [processChunk]
  | cons c cs =>
    simp only [processChunk, List.isEmpty_cons, Bool.false_eq_true, if_false]
    split
    · by_cases hc : m.chars <;>
        simp_all [hc, addChars, foldl_asciiStep_asciiMode, asciiStep_asciiMode]
    · simp only [decodeLoop, decodeLoopGo_asciiMode]
      simp_all

theorem processChunk_lines (m : Metrics) (loc : Info) (st : ScanState)
    (chunk : List Nat) (h : st.carry = []) :
    (processChunk m loc st chunk).res.lines =
      st.res.lines + (if m.lines then chunk.count 10 else 0) := by
  cases chunk with
  | nil => simp [processChunk]
  | cons c cs =>
    simp only [processChunk, List.isEmpty_cons, Bool.false_eq_true, if_false]
    split
    · by_cases hc : m.chars <;>
      · simp [hc, addChars, foldl_asciiStep_lines, asciiStep_lines,
          List.count_cons]
        by_cases hml : m.lines <;> by_cases h10 : c = 10 <;>
          simp [hml, h10] <;> omega
    · simp only [decodeLoop, h]
      rw [decodeLoopGo_lines m _ _ _ (by simp)]
      simp

theorem processChunk_words_of_not (m : Metrics) (loc : Info) (st : ScanState)
    (chunk : List Nat) (h : m.words = false) :
    (processChunk m loc st chunk).res.words = st.res.words := by
  cases chunk with
  | nil => simp [processChunk]
  | cons c cs =>
    simp only [processChunk, List.isEmpty_cons, Bool.false_eq_true, if_false]
    split
    · by_cases hc : m.chars <;>
        simp [hc, addChars, foldl_asciiStep_words_of_not m h,
          asciiStep_words_of_not m _ _ h]
    · simp [decodeLoop, decodeLoopGo_words_of_not m h]

theorem processChunk_chars_of_not (m : Metrics) (loc : Info) (st : ScanState)
    (chunk : List Nat) (h : m.chars = false) :
    (processChunk m loc st chunk).res.chars = st.res.chars := by
  cases chunk with
  | nil => simp [processChunk]
  | cons c cs =>
    simp only [processChunk, List.isEmpty_cons, Bool.false_eq_true, if_false]
    split
    · simp [h, foldl_asciiStep_chars, asciiStep_chars]
    · simp [decodeLoop, decodeLoopGo_chars_of_not m h]

theorem processChunk_maxLineBytes_of_not (m : Metrics) (loc : Info)
    (st : ScanState) (chunk : List Nat) (h : m.maxLineBytes = false) :
    (processChunk m loc st chunk).res.maxLineBytes = st.res.maxLineBytes := by
  cases chunk with
  | nil => simp [processChunk]
  | cons c cs =>
    simp only [processChunk, List.isEmpty_cons, Bool.false_eq_true, if_false]
    split
    · by_cases hc : m.chars <;>
        simp [hc, addChars, foldl_asciiStep_maxLineBytes_of_not m h,
          asciiStep_maxLineBytes_of_not m _ _ h]
    · simp [decodeLoop, decodeLoopGo_maxLineBytes_of_not m h]

theorem processChunk_maxLineChars_of_not (m : Metrics) (loc : Info)
    (st : ScanState) (chunk : List Nat) (h : m.maxLineChars = false) :
    (processChunk m loc st chunk).res.maxLineChars = st.res.maxLineChars := by
  cases chunk with
  | nil => simp [processChunk]
  | cons c cs =>
    simp only [processChunk, List.isEmpty_cons, Bool.false_eq_true, if_false]
    split
    · by_cases hc : m.chars <;>
        simp [hc, addChars, foldl_asciiStep_maxLineChars_of_not m h,
          asciiStep_maxLineChars_of_not m _ _ h]
    · simp [decodeLoop, decodeLoopGo_maxLineChars_of_not m h]

/-! ### The main read loop over all chunks -/

theorem foldChunks_carry (m : Metrics) (loc : Info) :
    ∀ (chunks : List (List Nat)) (st : ScanState), st.carry = [] →
    (chunks.foldl (processChunk m loc) st).carry = [] := by
  intro chunks
  induction chunks with
  | nil => intro st h; exact h
  | cons c cs ih =>
    intro st h
    rw [List.foldl_cons]
    exact ih _ (processChunk_carry m loc st c h)

theorem foldChunks_err (m : Metrics) (loc : Info) :
    ∀ (chunks : List (List Nat)) (st : ScanState),
    (chunks.foldl (processChunk m loc) st).res.err = st.res.err := by
  intro chunks
  induction chunks with
  | nil => intro st; rfl
  | cons c cs ih =>
    intro st
    rw [List.foldl_cons, ih, processChunk_err]

theorem foldChunks_bytes (m : Metrics) (loc : Info) :
    ∀ (chunks : List (List Nat)) (st : ScanState),
    (chunks.foldl (processChunk m loc) st).res.bytes =
      st.res.bytes + (chunks.map List.length).sum := by
  intro chunks
  induction chunks with
  | nil => intro st; simp
  | cons c cs ih =>
    intro st
    rw [List.foldl_cons, ih, processChunk_bytes]
    simp [Nat.add_assoc]

theorem foldChunks_lines (m : Metrics) (loc : Info) :
    ∀ (chunks : List (List Nat)) (st : ScanState), st.carry = [] →
    (chunks.foldl (processChunk m loc) st).res.lines =
      st.res.lines +
        (if m.lines then (chunks.map (fun c => c.count 10)).sum else 0) := by
  intro chunks
  induction chunks with
  | nil => intro st h; simp
  | cons c cs ih =>
    intro st h
    rw [List.foldl_cons, ih _ (processChunk_carry m loc st c h),
      processChunk_lines m loc st c h]
    by_cases hml : m.lines <;> simp [hml] <;> omega

theorem foldChunks_words_of_not (m : Metrics) (loc : Info) (h : m.words = false) :
    ∀ (chunks : List (List Nat)) (st : ScanState),
    (chunks.foldl (processChunk m loc) st).res.words = st.res.words := by
  intro chunks
  induction chunks with
  | nil => intro st; rfl
  | cons c cs ih =>
    intro st
    rw [List.foldl_cons, ih, processChunk_words_of_not m loc st c h]

theorem foldChunks_chars_of_not (m : Metrics) (loc : Info) (h : m.chars = false) :
    ∀ (chunks : List (List Nat)) (st : ScanState),
    (chunks.foldl (processChunk m loc) st).res.chars = st.res.chars := by
  intro chunks
  induction chunks with
  | nil => intro st; rfl
  | cons c cs ih =>
    intro st
    rw [List.foldl_cons, ih, processChunk_chars_of_not m loc st c h]

theorem foldChunks_maxLineBytes_of_not (m : Metrics) (loc : Info)
    (h : m.maxLineBytes = false) :
    ∀ (chunks : List (List Nat)) (st : ScanState),
    (chunks.foldl (processChunk m loc) st).res.maxLineBytes =
      st.res.maxLineBytes := by
  intro chunks
  induction chunks with
  | nil => intro st; rfl
  | cons c cs ih =>
    intro st
    rw [List.foldl_cons, ih, processChunk_maxLineBytes_of_not m loc st c h]

theorem foldChunks_maxLineChars_of_not (m : Metrics) (loc : Info)
    (h : m.maxLineChars = false) :
    ∀ (chunks : List (List Nat)) (st : ScanState),
    (chunks.foldl (processChunk m loc) st).res.maxLineChars =
      st.res.maxLineChars := by
  intro chunks
  induction chunks with
  | nil => intro st; rfl
  | cons c cs ih =>
    intro st
    rw [List.foldl_cons, ih, processChunk_maxLineChars_of_not m loc st c h]

theorem foldChunks_asciiMode_mono (m : Metrics) (loc : Info) :
    ∀ (chunks : List (List Nat)) (st : ScanState),
    (chunks.foldl (processChunk m loc) st).asciiMode = true →
    st.asciiMode = true := by
  intro chunks
  induction chunks with
  | nil => intro st h; exact h
  | cons c cs ih =>
    intro st h
    have h1 := ih _ h
    rw [processChunk_asciiMode] at h1
    by_cases he : c.isEmpty
    · simpa [he] using h1
    · simp only [he, Bool.false_eq_true, if_false, Bool.and_eq_true] at h1
      exact h1.1

theorem foldChunks_asciiMode_posix (m : Metrics) (loc : Info)
    (h : loc.isCOrPOSIX = true) :
    ∀ (chunks : List (List Nat)) (st : ScanState),
    (chunks.foldl (processChunk m loc) st).asciiMode = st.asciiMode := by
  intro chunks
  induction chunks with
  | nil => intro st; rfl
  | cons c cs ih =>
    intro st
    rw [List.foldl_cons, ih, processChunk_asciiMode]
    by_cases he : c.isEmpty <;> simp [he, h]


/-! ### Finalization -/

theorem finalizeRes_lines (m : Metrics) (st : ScanState) :
    (finalizeRes m st).lines = st.res.lines := by
  simp only [finalizeRes, apply_ite (fun r : FileResult => r.lines)]
  split <;> simp

theorem finalizeRes_words (m : Metrics) (st : ScanState) :
    (finalizeRes m st).words = st.res.words := by
  simp only [finalizeRes, apply_ite (fun r : FileResult => r.words)]
  split <;> simp

theorem finalizeRes_bytes (m : Metrics) (st : ScanState) :
    (finalizeRes m st).bytes = st.res.bytes := by
  simp only [finalizeRes, apply_ite (fun r : FileResult => r.bytes)]
  split <;> simp

theorem finalizeRes_chars (m : Metrics) (st : ScanState) :
    (finalizeRes m st).chars = st.res.chars := by
  simp only [finalizeRes, apply_ite (fun r : FileResult => r.chars)]
  split <;> simp

theorem finalizeRes_err (m : Metrics) (st : ScanState) :
    (finalizeRes m st).err = st.res.err := by
  simp only [finalizeRes, apply_ite (fun r : FileResult => r.err)]
  split <;> simp

theorem finalizeRes_maxLineBytes_of_not (m : Metrics) (st : ScanState)
    (h : m.maxLineBytes = false) :
    (finalizeRes m st).maxLineBytes = st.res.maxLineBytes := by
  simp only [finalizeRes, h, apply_ite (fun r : FileResult => r.maxLineBytes)]
  split <;> simp

theorem finalizeRes_maxLineChars_of_not (m : Metrics) (st : ScanState)
    (h : m.maxLineChars = false) :
    (finalizeRes m st).maxLineChars = st.res.maxLineChars := by
  simp only [finalizeRes, h, apply_ite (fun r : FileResult => r.maxLineChars)]
  split <;> simp

/-! ### Chunking of an in-memory buffer -/

theorem chunksOfGo_sum_length (sz : Nat) (hsz : 0 < sz) :
    ∀ (fuel : Nat) (l : List Nat), l.length ≤ fuel →
    ((chunksOfGo sz fuel l).map List.length).sum = l.length := by
  intro fuel
  induction fuel with
  | zero =>
    intro l h
    have : l = [] := List.eq_nil_of_length_eq_zero (Nat.le_zero.mp h)
    subst this
    rfl
  | succ n ih =>
    intro l h
    cases l with
    | nil => rfl
    | cons b bs =>
      have hne : (sz == 0) = false := by simp; omega
      simp only [chunksOfGo, hne, Bool.false_eq_true, if_false, List.map_cons,
        List.sum_cons]
      rw [ih ((b :: bs).drop sz) (by simp at h ⊢; omega)]
      simp only [List.length_take, List.length_drop, List.length_cons]
      omega

theorem chunksOfGo_sum_count10 (sz : Nat) (hsz : 0 < sz) :
    ∀ (fuel : Nat) (l : List Nat), l.length ≤ fuel →
    ((chunksOfGo sz fuel l).map (fun c => c.count 10)).sum = l.count 10 := by
  intro fuel
  induction fuel with
  | zero =>
    intro l h
    have : l = [] := List.eq_nil_of_length_eq_zero (Nat.le_zero.mp h)
    subst this
    rfl
  | succ n ih =>
    intro l h
    cases l with
    | nil => rfl
    | cons b bs =>
      have hne : (sz == 0) = false := by simp; omega
      simp only [chunksOfGo, hne, Bool.false_eq_true, if_false, List.map_cons,
        List.sum_cons]
      rw [ih ((b :: bs).drop sz) (by simp at h ⊢; omega)]
      conv_rhs => rw [← List.take_append_drop sz (b :: bs)]
      rw [List.count_append]

/-! ### C6, C7, C10 -/

/-- C6: the decoding mode transitions at most once per stream, only from the
ASCII fast path to full decoding (once `asciiMode` is false it never comes
back, so a true mode at the end means it was true throughout); under a
C/POSIX locale the mode never changes; and under a non-C/POSIX locale a
chunk switches the mode off exactly when it contains a byte ≥ 0x80. -/
theorem c6_mode_monotonic (m : Metrics) (loc : Info) (st : ScanState)
    (chunks : List (List Nat)) :
    ((chunks.foldl (processChunk m loc) st).asciiMode = true →
      st.asciiMode = true)
    ∧ (loc.isCOrPOSIX = true →
      (chunks.foldl (processChunk m loc) st).asciiMode = st.asciiMode)
    ∧ (∀ chunk : List Nat, st.asciiMode = true → loc.isCOrPOSIX = false →
      (processChunk m loc st chunk).asciiMode =
        !(chunk.any (fun b => decide (0x80 ≤ b)))) := by
  refine ⟨foldChunks_asciiMode_mono m loc chunks st,
    fun h => foldChunks_asciiMode_posix m loc h chunks st, ?_⟩
  intro chunk hm hp
  rw [processChunk_asciiMode]
  cases chunk with
  | nil => simp [hm]
  | cons c cs => simp [hm, hp]

/-- Witness for C6: a UTF-8-locale scan starts in the ASCII fast path and a
chunk containing the byte 0xC8 switches the mode off. -/
theorem c6_mode_monotonic_witness :
    (processChunk
      { lines := true, words := true, bytes := true, chars := true,
        maxLineBytes := true, maxLineChars := true }
      { isUTF8 := true, isCOrPOSIX := false }
      (initState { isUTF8 := true, isCOrPOSIX := false })
      [200]).asciiMode = false :=
  ((c6_mode_monotonic
    { lines := true, words := true, bytes := true, chars := true,
      maxLineBytes := true, maxLineChars := true }
    { isUTF8 := true, isCOrPOSIX := false }
    (initState { isUTF8 := true, isCOrPOSIX := false })
    []).2.2 [200] rfl rfl).trans (by decide)

/-- C7: on a read error, the returned result carries the error together with
the counts accumulated so far (Bytes equal to all bytes consumed, and Lines,
Words, Chars identical to an error-free scan of the same chunks); the
aggregator excludes the error-carrying result from the running totals while
the overall completion status becomes non-zero. -/
theorem c7_read_error_partial (m : Metrics) (opt : Options)
    (chunks : List (List Nat)) (rs : List FileResult) :
    (CountReader m opt chunks true).err = true
    ∧ (CountReader m opt chunks true).bytes = (chunks.map List.length).sum
    ∧ (CountReader m opt chunks true).lines =
        (CountReader m opt chunks false).lines
    ∧ (CountReader m opt chunks true).words =
        (CountReader m opt chunks false).words
    ∧ (CountReader m opt chunks true).chars =
        (CountReader m opt chunks false).chars
    ∧ totalsOf (rs ++ [CountReader m opt chunks true]) = totalsOf rs
    ∧ exitCodeOf (rs ++ [CountReader m opt chunks true]) = 1 := by
  have herr : (CountReader m opt chunks true).err = true := by
    simp [CountReader]
  refine ⟨herr, ?_, ?_, ?_, ?_, ?_, ?_⟩
  · show (runChunks m opt.locale chunks).res.bytes = (chunks.map List.length).sum
    rw [runChunks, foldChunks_bytes]
    simp [initState]
  · show (runChunks m opt.locale chunks).res.lines =
      (finalizeRes m (runChunks m opt.locale chunks)).lines
    rw [finalizeRes_lines]
  · show (runChunks m opt.locale chunks).res.words =
      (finalizeRes m (runChunks m opt.locale chunks)).words
    rw [finalizeRes_words]
  · show (runChunks m opt.locale chunks).res.chars =
      (finalizeRes m (runChunks m opt.locale chunks)).chars
    rw [finalizeRes_chars]
  · rw [totalsOf, totalsOf, List.foldl_append, List.foldl_cons,
      List.foldl_nil, addTotals, if_pos herr]
  · simp [exitCodeOf, herr]

/-- C10: the Bytes field always records the total number of bytes read, even
when the Bytes metric is not selected, while every counter of an unselected
metric stays zero; in particular `CountBytes` reports the full buffer length
as Bytes for any metrics selection. -/
theorem c10_unselected_zero (m : Metrics) (opt : Options)
    (chunks : List (List Nat)) (b : List Nat) :
    (CountReader m opt chunks false).bytes = (chunks.map List.length).sum
    ∧ (m.lines = false → (CountReader m opt chunks false).lines = 0)
    ∧ (m.words = false → (CountReader m opt chunks false).words = 0)
    ∧ (m.chars = false → (CountReader m opt chunks false).chars = 0)
    ∧ (m.maxLineBytes = false →
        (CountReader m opt chunks false).maxLineBytes = 0)
    ∧ (m.maxLineChars = false →
        (CountReader m opt chunks false).maxLineChars = 0)
    ∧ (0 < opt.bufferSize → (CountBytes b m opt).bytes = b.length) := by
  refine ⟨?_, ?_, ?_, ?_, ?_, ?_, ?_⟩
  · show (finalizeRes m (runChunks m opt.locale chunks)).bytes = _
    rw [finalizeRes_bytes, runChunks, foldChunks_bytes]
    simp [initState]
  · intro h
    show (finalizeRes m (runChunks m opt.locale chunks)).lines = 0
    rw [finalizeRes_lines, runChunks, foldChunks_lines m opt.locale chunks _ rfl]
    simp [initState, h]
  · intro h
    show (finalizeRes m (runChunks m opt.locale chunks)).words = 0
    rw [finalizeRes_words, runChunks, foldChunks_words_of_not m opt.locale h]
    rfl
  · intro h
    show (finalizeRes m (runChunks m opt.locale chunks)).chars = 0
    rw [finalizeRes_chars, runChunks, foldChunks_chars_of_not m opt.locale h]
    rfl
  · intro h
    show (finalizeRes m (runChunks m opt.locale chunks)).maxLineBytes = 0
    rw [finalizeRes_maxLineBytes_of_not m _ h, runChunks,
      foldChunks_maxLineBytes_of_not m opt.locale h]
    rfl
  · intro h
    show (finalizeRes m (runChunks m opt.locale chunks)).maxLineChars = 0
    rw [finalizeRes_maxLineChars_of_not m _ h, runChunks,
      foldChunks_maxLineChars_of_not m opt.locale h]
    rfl
  · intro h
    show (finalizeRes m (runChunks m opt.locale (chunksOf opt.bufferSize b))).bytes = _
    rw [finalizeRes_bytes, runChunks, foldChunks_bytes]
    rw [chunksOf, chunksOfGo_sum_length opt.bufferSize h b.length b le_rfl]
    simp [initState]

/-- Witness for C10: with no metric selected, counting "hi" still reports
Bytes = 2 while all other counters are zero. -/
theorem c10_unselected_zero_witness :
    (CountReader
      { lines := false, words := false, bytes := false, chars := false,
        maxLineBytes := false, maxLineChars := false }
      { bufferSize := 1024, locale := { isUTF8 := true, isCOrPOSIX := false } }
      [[104, 105]] false).bytes = 2
    ∧ (CountReader
      { lines := false, words := false, bytes := false, chars := false,
        maxLineBytes := false, maxLineChars := false }
      { bufferSize := 1024, locale := { isUTF8 := true, isCOrPOSIX := false } }
      [[104, 105]] false).lines = 0
    ∧ (CountBytes [104, 105]
      { lines := false, words := false, bytes := false, chars := false,
        maxLineBytes := false, maxLineChars := false }
      { bufferSize := 1024, locale := { isUTF8 := true, isCOrPOSIX := false } }).bytes = 2 := by
  refine ⟨?_, ?_, ?_⟩
  · exact (c10_unselected_zero _ _ [[104, 105]] [104, 105]).1.trans (by decide)
  · exact (c10_unselected_zero _
      { bufferSize := 1024, locale := { isUTF8 := true, isCOrPOSIX := false } }
      [[104, 105]] [104, 105]).2.1 rfl
  · exact ((c10_unselected_zero _
      { bufferSize := 1024, locale := { isUTF8 := true, isCOrPOSIX := false } }
      [[104, 105]] [104, 105]).2.2.2.2.2.2 (by decide)).trans (by decide)


/-! ### C1, C2, C5 -/

/-- C1 (refuting chunk-invariance): the carry logic of `CountReader` is dead
code — `utf8.DecodeRune` returns `(RuneError, 1)` on a rune prefix cut off
at a chunk boundary, so the decode loop absorbs the prefix as invalid bytes
and never leaves anything for the carry.  Counting "é" (bytes 0xC3 0xA9)
under the UTF-8 locale yields Chars = 2 with chunk size 1 but Chars = 1 with
chunk size 2. -/
theorem c1_chunk_size_dependence :
    (CountBytes [195, 169]
      { lines := false, words := false, bytes := false, chars := true,
        maxLineBytes := false, maxLineChars := false }
      { bufferSize := 1, locale := { isUTF8 := true, isCOrPOSIX := false } }).chars = 2
    ∧ (CountBytes [195, 169]
      { lines := false, words := false, bytes := false, chars := true,
        maxLineBytes := false, maxLineChars := false }
      { bufferSize := 2, locale := { isUTF8 := true, isCOrPOSIX := false } }).chars = 1 := by
  decide

/-- C2 (refuting per-line reset): the newline reset of the line-length
accumulators is guarded by the Lines metric, so with only MaxLineBytes
selected the accumulator never resets and "a\nbb\nccc\n" yields 9 — the
accumulation defect the spec forbids — while selecting Lines as well yields
the intended 3. -/
theorem c2_maxline_accumulation :
    (CountBytes [97, 10, 98, 98, 10, 99, 99, 99, 10]
      { lines := false, words := false, bytes := false, chars := false,
        maxLineBytes := true, maxLineChars := false }
      { bufferSize := 1024, locale := { isUTF8 := true, isCOrPOSIX := false } }).maxLineBytes = 9
    ∧ (CountBytes [97, 10, 98, 98, 10, 99, 99, 99, 10]
      { lines := true, words := false, bytes := false, chars := false,
        maxLineBytes := true, maxLineChars := false }
      { bufferSize := 1024, locale := { isUTF8 := true, isCOrPOSIX := false } }).maxLineBytes = 3 := by
  decide

/-- C5: an invalid byte sequence at the head of the decode loop is absorbed
as exactly one character of one byte: the loop advances by exactly one byte
and continues on the rest; Chars grows by one (when selected), both line
accumulators grow by one (when selected), the byte is tested for the newline
(an invalid head byte is ≥ 0x80, hence never the newline, so Lines and the
maxima are untouched) and classified as non-whitespace for word tracking. -/
theorem c5_invalid_absorption (m : Metrics) (st : ScanState) (b : Nat)
    (rest : List Nat) (h : decodeRune (b :: rest) = (runeError, 1)) :
    decodeLoop m st (b :: rest) = decodeLoop m
      { st with
        res := { st.res with
          chars := st.res.chars + (if m.chars then 1 else 0)
          words := st.res.words + (if m.words && st.prevSpace then 1 else 0) }
        prevSpace := if m.words then false else st.prevSpace
        curLineBytes := st.curLineBytes + (if m.maxLineBytes then 1 else 0)
        curLineChars := st.curLineChars + (if m.maxLineChars then 1 else 0) }
      rest := by
  have hb : 0x80 ≤ b := decodeRune_invalid_high b rest h
  have hsp : asciiSpace b = false := by simp [asciiSpace]; omega
  have hb10 : (b == 10) = false := by simp; omega
  show decodeLoopGo m (rest.length + 1) st (b :: rest) = _
  simp only [decodeLoopGo, h]
  have hstep : decodeStep m b rest st =
      { st with
        res := { st.res with
          chars := st.res.chars + (if m.chars then 1 else 0)
          words := st.res.words + (if m.words && st.prevSpace then 1 else 0) }
        prevSpace := if m.words then false else st.prevSpace
        curLineBytes := st.curLineBytes + (if m.maxLineBytes then 1 else 0)
        curLineChars := st.curLineChars + (if m.maxLineChars then 1 else 0) } := by
    simp only [decodeStep, h, hb10, Bool.and_false, runeError]
    by_cases hc : m.chars <;> by_cases hw : m.words <;>
      simp [hc, hw, addChars, lineAdvance, wordStep, hsp]
  rw [hstep]
  rfl

/-- Witness for C5: a lone 0x80 byte contributes exactly one character. -/
theorem c5_invalid_absorption_witness :
    (decodeLoop
      { lines := true, words := true, bytes := true, chars := true,
        maxLineBytes := true, maxLineChars := true }
      (initState { isUTF8 := true, isCOrPOSIX := false }) [128]).res.chars = 1 := by
  have h := c5_invalid_absorption
    { lines := true, words := true, bytes := true, chars := true,
      maxLineBytes := true, maxLineChars := true }
    (initState { isUTF8 := true, isCOrPOSIX := false }) 128 [] (by decide)
  rw [h]
  decide


/-! ### C3 -/

theorem CountBytes_bytes (m : Metrics) (opt : Options) (l : List Nat)
    (h : 0 < opt.bufferSize) : (CountBytes l m opt).bytes = l.length := by
  show (finalizeRes m (runChunks m opt.locale (chunksOf opt.bufferSize l))).bytes = _
  rw [finalizeRes_bytes, runChunks, foldChunks_bytes]
  rw [chunksOf, chunksOfGo_sum_length opt.bufferSize h l.length l le_rfl]
  simp [initState]

theorem CountBytes_lines (m : Metrics) (opt : Options) (l : List Nat)
    (h : 0 < opt.bufferSize) :
    (CountBytes l m opt).lines = (if m.lines then l.count 10 else 0) := by
  show (finalizeRes m (runChunks m opt.locale (chunksOf opt.bufferSize l))).lines = _
  rw [finalizeRes_lines, runChunks,
    foldChunks_lines m opt.locale (chunksOf opt.bufferSize l) _ rfl]
  rw [chunksOf, chunksOfGo_sum_count10 opt.bufferSize h l.length l le_rfl]
  simp [initState]

/-- C3 (counterexample to Words and Chars additivity): under the UTF-8
locale with all four metrics selected, "ab" and "cd" count one word each but
their concatenation "abcd" is a single word; the byte lists [0xC3] and
[0xA9] count one (invalid) character each but their concatenation is the
single two-byte rune "é". -/
theorem c3_sum_counterexample :
    ((CountBytes [97, 98]
        { lines := true, words := true, bytes := true, chars := true,
          maxLineBytes := false, maxLineChars := false }
        { bufferSize := 1024, locale := { isUTF8 := true, isCOrPOSIX := false } }).words +
      (CountBytes [99, 100]
        { lines := true, words := true, bytes := true, chars := true,
          maxLineBytes := false, maxLineChars := false }
        { bufferSize := 1024, locale := { isUTF8 := true, isCOrPOSIX := false } }).words ≠
      (CountBytes [97, 98, 99, 100]
        { lines := true, words := true, bytes := true, chars := true,
          maxLineBytes := false, maxLineChars := false }
        { bufferSize := 1024, locale := { isUTF8 := true, isCOrPOSIX := false } }).words)
    ∧ ((CountBytes [195]
        { lines := true, words := true, bytes := true, chars := true,
          maxLineBytes := false, maxLineChars := false }
        { bufferSize := 1024, locale := { isUTF8 := true, isCOrPOSIX := false } }).chars +
      (CountBytes [169]
        { lines := true, words := true, bytes := true, chars := true,
          maxLineBytes := false, maxLineChars := false }
        { bufferSize := 1024, locale := { isUTF8 := true, isCOrPOSIX := false } }).chars ≠
      (CountBytes [195, 169]
        { lines := true, words := true, bytes := true, chars := true,
          maxLineBytes := false, maxLineChars := false }
        { bufferSize := 1024, locale := { isUTF8 := true, isCOrPOSIX := false } }).chars) := by
  decide

/-- C3 (amended): counting two byte streams independently and summing the
Lines and Bytes counts equals counting their concatenation as one stream;
the law does not extend to Words or Chars, where a word or a multibyte code
point spanning the boundary breaks it. -/
theorem c3_sum_lines_bytes (m : Metrics) (opt : Options) (s t : List Nat)
    (h : 0 < opt.bufferSize) :
    (CountBytes s m opt).lines + (CountBytes t m opt).lines =
      (CountBytes (s ++ t) m opt).lines
    ∧ (CountBytes s m opt).bytes + (CountBytes t m opt).bytes =
      (CountBytes (s ++ t) m opt).bytes := by
  constructor
  · rw [CountBytes_lines m opt s h, CountBytes_lines m opt t h,
      CountBytes_lines m opt (s ++ t) h, List.count_append]
    by_cases hml : m.lines <;> simp [hml]
  · rw [CountBytes_bytes m opt s h, CountBytes_bytes m opt t h,
      CountBytes_bytes m opt (s ++ t) h, List.length_append]

/-- Witness for C3 (amended): "a\nb" and "c\n" sum to the counts of
"a\nbc\n" for Lines and Bytes. -/
theorem c3_sum_lines_bytes_witness :
    (CountBytes [97, 10, 98]
        { lines := true, words := true, bytes := true, chars := true,
          maxLineBytes := false, maxLineChars := false }
        { bufferSize := 2, locale := { isUTF8 := true, isCOrPOSIX := false } }).lines +
      (CountBytes [99, 10]
        { lines := true, words := true, bytes := true, chars := true,
          maxLineBytes := false, maxLineChars := false }
        { bufferSize := 2, locale := { isUTF8 := true, isCOrPOSIX := false } }).lines =
      (CountBytes ([97, 10, 98] ++ [99, 10])
        { lines := true, words := true, bytes := true, chars := true,
          maxLineBytes := false, maxLineChars := false }
        { bufferSize := 2, locale := { isUTF8 := true, isCOrPOSIX := false } }).lines
    ∧ (CountBytes [97, 10, 98]
        { lines := true, words := true, bytes := true, chars := true,
          maxLineBytes := false, maxLineChars := false }
        { bufferSize := 2, locale := { isUTF8 := true, isCOrPOSIX := false } }).bytes +
      (CountBytes [99, 10]
        { lines := true, words := true, bytes := true, chars := true,
          maxLineBytes := false, maxLineChars := false }
        { bufferSize := 2, locale := { isUTF8 := true, isCOrPOSIX := false } }).bytes =
      (CountBytes ([97, 10, 98] ++ [99, 10])
        { lines := true, words := true, bytes := true, chars := true,
          maxLineBytes := false, maxLineChars := false }
        { bufferSize := 2, locale := { isUTF8 := true, isCOrPOSIX := false } }).bytes :=
  c3_sum_lines_bytes _ _ [97, 10, 98] [99, 10] (by decide)


/-! ### C4: ASCII fast path vs. full decoding -/

theorem isSpaceRune_ascii : ∀ b < 0x80, isSpaceRune b = asciiSpace b := by
  decide

theorem addChars_addChars (j k : Nat) (st : ScanState) :
    addChars k (addChars j st) = addChars (j + k) st := by
  simp [addChars, Nat.add_assoc]

theorem asciiStep_addChars (m : Metrics) (k : Nat) (st : ScanState) (b : Nat) :
    asciiStep m (addChars k st) b = addChars k (asciiStep m st b) := by
  simp only [asciiStep, addChars, wordStep, newlineStep, lineAdvance]
  repeat' split
  all_goals simp_all

theorem foldl_asciiStep_addChars (m : Metrics) :
    ∀ (l : List Nat) (k : Nat) (st : ScanState),
    l.foldl (asciiStep m) (addChars k st) = addChars k (l.foldl (asciiStep m) st) := by
  intro l
  induction l with
  | nil => intro k st; rfl
  | cons b rest ih =>
    intro k st
    rw [List.foldl_cons, List.foldl_cons, asciiStep_addChars, ih]

/-- On an ASCII head byte, one decode-loop step is the ASCII step plus one
character. -/
theorem decodeStep_ascii (m : Metrics) (b : Nat) (rest : List Nat)
    (st : ScanState) (h : b < 0x80) :
    decodeStep m b rest st =
      (if m.chars then addChars 1 (asciiStep m st b) else asciiStep m st b) := by
  have hdec := decodeRune_ascii b rest h
  have hne : (b == runeError) = false := by simp [runeError]; omega
  have hsp := isSpaceRune_ascii b h
  simp only [decodeStep, hdec, hne, Bool.false_and, Bool.false_eq_true,
    if_false, hsp, asciiStep]
  by_cases hc : m.chars <;> by_cases hw : m.words <;>
    by_cases hl : (m.lines && b == 10) = true
  all_goals
    simp only [hc, hw, hl, if_true, Bool.false_eq_true, if_false,
      addChars, wordStep, newlineStep, lineAdvance]
  all_goals
    first
    | rfl
    | (repeat' split
       all_goals simp_all)

theorem decodeLoopGo_ascii (m : Metrics) :
    ∀ (fuel : Nat) (st : ScanState) (data : List Nat), data.length ≤ fuel →
    (∀ x ∈ data, x < 0x80) →
    decodeLoopGo m fuel st data =
      (if m.chars then addChars data.length (data.foldl (asciiStep m) st)
       else data.foldl (asciiStep m) st) := by
  intro fuel
  induction fuel with
  | zero =>
    intro st data h _
    have : data = [] := List.eq_nil_of_length_eq_zero (Nat.le_zero.mp h)
    subst this
    by_cases hc : m.chars <;> simp [hc, decodeLoopGo, addChars]
  | succ n ih =>
    intro st data h hascii
    cases data with
    | nil => by_cases hc : m.chars <;> simp [hc, decodeLoopGo, addChars]
    | cons b rest =>
      have hb : b < 0x80 := hascii b (List.mem_cons_self b rest)
      have hdec := decodeRune_ascii b rest hb
      simp only [decodeLoopGo, hdec]
      have hdrop : (b :: rest).drop 1 = rest := rfl
      rw [hdrop, ih (decodeStep m b rest st) rest (by simp at h ⊢; omega)
        (fun x hx => hascii x (List.mem_cons_of_mem b hx))]
      rw [decodeStep_ascii m b rest st hb]
      by_cases hc : m.chars
      · simp only [hc, if_true]
        rw [foldl_asciiStep_addChars, addChars_addChars]
        simp [List.foldl_cons, Nat.add_comm]
      · simp [hc, List.foldl_cons]

theorem asciiStep_setMode (m : Metrics) (st : ScanState) (b : Nat) (x : Bool) :
    asciiStep m { st with asciiMode := x } b =
      { asciiStep m st b with asciiMode := x } := by
  simp only [asciiStep, wordStep, newlineStep, lineAdvance]
  repeat' split
  all_goals simp_all

theorem foldl_asciiStep_setMode (m : Metrics) :
    ∀ (l : List Nat) (st : ScanState) (x : Bool),
    l.foldl (asciiStep m) { st with asciiMode := x } =
      { l.foldl (asciiStep m) st with asciiMode := x } := by
  intro l
  induction l with
  | nil => intro st x; rfl
  | cons b rest ih =>
    intro st x
    rw [List.foldl_cons, List.foldl_cons, asciiStep_setMode, ih]

theorem addChars_setMode (k : Nat) (st : ScanState) (x : Bool) :
    addChars k { st with asciiMode := x } = { addChars k st with asciiMode := x } := by
  simp [addChars]

theorem setMode_self (st : ScanState) (h : st.asciiMode = false) :
    { st with asciiMode := false } = st := by
  cases st
  simp_all

/-- Unfolding of `processChunk` on a non-empty chunk when the ASCII fast
path does not apply: the chunk goes through the decode loop. -/
theorem processChunk_decode_spec (m : Metrics) (loc : Info) (st : ScanState)
    (c : Nat) (cs : List Nat)
    (hcond : (st.asciiMode &&
      !(!loc.isCOrPOSIX && (c :: cs).any (fun b => decide (0x80 ≤ b)))) = false) :
    processChunk m loc st (c :: cs) =
      decodeLoop m
        { st with
          res := { st.res with bytes := st.res.bytes + (c :: cs).length }
          asciiMode := false
          carry := [] }
        (st.carry ++ (c :: cs)) := by
  simp only [processChunk, List.isEmpty_cons, Bool.false_eq_true, if_false,
    hcond]
  try rfl

/-- Unfolding of `processChunk` on a non-empty chunk when the ASCII fast
path applies. -/
theorem processChunk_ascii_spec (m : Metrics) (loc : Info) (st : ScanState)
    (c : Nat) (cs : List Nat)
    (hcond : (st.asciiMode &&
      !(!loc.isCOrPOSIX && (c :: cs).any (fun b => decide (0x80 ≤ b)))) = true) :
    processChunk m loc st (c :: cs) =
      (if m.chars then
        addChars (c :: cs).length
          ((c :: cs).foldl (asciiStep m)
            { st with res := { st.res with bytes := st.res.bytes + (c :: cs).length } })
      else
        (c :: cs).foldl (asciiStep m)
          { st with res := { st.res with bytes := st.res.bytes + (c :: cs).length } }) := by
  simp only [processChunk, List.isEmpty_cons, Bool.false_eq_true, if_false,
    hcond]
  try rfl

/-- Processing an all-ASCII chunk under a non-C/POSIX locale gives the same
state whether it runs on the ASCII fast path or through full decoding: the
two runs differ only in the `asciiMode` flag. -/
theorem processChunk_forced (m : Metrics) (loc : Info) (st : ScanState)
    (chunk : List Nat) (hloc : loc.isCOrPOSIX = false)
    (hascii : ∀ x ∈ chunk, x < 0x80) (hc : st.carry = []) :
    processChunk m loc { st with asciiMode := false } chunk =
      { processChunk m loc st chunk with asciiMode := false } := by
  obtain ⟨r0, p0, cb0, cc0, a0, car0⟩ := st
  have hcar : car0 = [] := hc
  subst hcar
  cases chunk with
  | nil => simp [processChunk]
  | cons c cs =>
    have hany : ((c :: cs).any fun b => decide (0x80 ≤ b)) = false := by
      rw [List.any_eq_false]
      intro x hx
      simpa using Nat.not_le.mpr (hascii x hx)
    cases a0 with
    | true =>
      rw [processChunk_decode_spec m loc _ c cs (by simp),
        processChunk_ascii_spec m loc _ c cs (by simp [hany, hloc])]
      show decodeLoop m
          { res := { r0 with bytes := r0.bytes + (c :: cs).length },
            prevSpace := p0, curLineBytes := cb0, curLineChars := cc0,
            asciiMode := false, carry := [] }
          ([] ++ (c :: cs)) = _
      rw [List.nil_append, decodeLoop]
      rw [decodeLoopGo_ascii m (c :: cs).length _ (c :: cs) le_rfl hascii]
      have hrw :
          ({ res := { r0 with bytes := r0.bytes + (c :: cs).length },
             prevSpace := p0, curLineBytes := cb0, curLineChars := cc0,
             asciiMode := false, carry := [] } : ScanState) =
          { ({ res := { r0 with bytes := r0.bytes + (c :: cs).length },
               prevSpace := p0, curLineBytes := cb0, curLineChars := cc0,
               asciiMode := true, carry := [] } : ScanState) with
            asciiMode := false } := rfl
      rw [hrw, foldl_asciiStep_setMode]
      by_cases hch : m.chars <;> simp [hch, addChars_setMode]
    | false =>
      rw [processChunk_decode_spec m loc _ c cs (by simp)]
      have hres : (decodeLoop m
          { res := { r0 with bytes := r0.bytes + (c :: cs).length },
            prevSpace := p0, curLineBytes := cb0, curLineChars := cc0,
            asciiMode := false, carry := [] }
          ([] ++ (c :: cs))).asciiMode = false := by
        rw [decodeLoop, decodeLoopGo_asciiMode]
      show decodeLoop m
          { res := { r0 with bytes := r0.bytes + (c :: cs).length },
            prevSpace := p0, curLineBytes := cb0, curLineChars := cc0,
            asciiMode := false, carry := [] }
          ([] ++ (c :: cs)) =
        { decodeLoop m
          { res := { r0 with bytes := r0.bytes + (c :: cs).length },
            prevSpace := p0, curLineBytes := cb0, curLineChars := cc0,
            asciiMode := false, carry := [] }
          ([] ++ (c :: cs)) with asciiMode := false }
      rw [setMode_self _ hres]

theorem foldChunks_forced (m : Metrics) (loc : Info)
    (hloc : loc.isCOrPOSIX = false) :
    ∀ (chunks : List (List Nat)) (st : ScanState),
    (∀ c ∈ chunks, ∀ x ∈ c, x < 0x80) → st.carry = [] →
    chunks.foldl (processChunk m loc) { st with asciiMode := false } =
      { chunks.foldl (processChunk m loc) st with asciiMode := false } := by
  intro chunks
  induction chunks with
  | nil => intro st _ _; rfl
  | cons c cs ih =>
    intro st hascii hc
    rw [List.foldl_cons, List.foldl_cons,
      processChunk_forced m loc st c hloc (hascii c (List.mem_cons_self c cs)) hc,
      ih (processChunk m loc st c)
        (fun d hd => hascii d (List.mem_cons_of_mem c hd))
        (processChunk_carry m loc st c hc)]

/-- C4: for an input consisting only of ASCII bytes under a non-byte-oriented
(multibyte/UTF-8) locale, `CountReader` produces exactly the same result as
the same scan with the ASCII fast path disabled, i.e. with every byte passed
through full rune decoding. -/
theorem c4_fastpath_equiv (m : Metrics) (opt : Options)
    (chunks : List (List Nat)) (readErr : Bool)
    (hloc : opt.locale.isCOrPOSIX = false)
    (hascii : ∀ c ∈ chunks, ∀ x ∈ c, x < 0x80) :
    CountReader m opt chunks readErr = CountReaderForced m opt chunks readErr := by
  unfold CountReader CountReaderForced runChunks
  rw [foldChunks_forced m opt.locale hloc chunks (initState opt.locale) hascii rfl]
  rfl

/-- Witness for C4: the ASCII input "hi" splits across two chunks and counts
identically with and without the fast path. -/
theorem c4_fastpath_equiv_witness :
    CountReader
      { lines := true, words := true, bytes := true, chars := true,
        maxLineBytes := true, maxLineChars := true }
      { bufferSize := 1, locale := { isUTF8 := true, isCOrPOSIX := false } }
      [[104], [105]] false =
    CountReaderForced
      { lines := true, words := true, bytes := true, chars := true,
        maxLineBytes := true, maxLineChars := true }
      { bufferSize := 1, locale := { isUTF8 := true, isCOrPOSIX := false } }
      [[104], [105]] false :=
  c4_fastpath_equiv _ _ [[104], [105]] false rfl (by decide)


/-! ### C8: ordered release by the reassembler -/

theorem findByIdx_none (i : Nat) :
    ∀ (l : List FileResult), findByIdx i l = none → ∀ x ∈ l, x.index ≠ i := by
  intro l
  induction l with
  | nil => intro _ x hx; cases hx
  | cons r rs ih =>
    intro h x hx
    by_cases hr : (r.index == i) = true
    · simp [findByIdx, hr] at h
    · simp only [findByIdx, hr, Bool.false_eq_true, if_false] at h
      rcases List.mem_cons.mp hx with hx | hx
      · subst hx
        simpa using hr
      · exact ih h x hx

theorem findByIdx_some (i : Nat) :
    ∀ (l : List FileResult) (r : FileResult), findByIdx i l = some r →
    r ∈ l ∧ r.index = i := by
  intro l
  induction l with
  | nil => intro r h; cases h
  | cons x xs ih =>
    intro r h
    by_cases hx : (x.index == i) = true
    · simp only [findByIdx, hx, if_true, Option.some.injEq] at h
      subst h
      exact ⟨List.mem_cons_self x xs, by simpa using hx⟩
    · simp only [findByIdx, hx, Bool.false_eq_true, if_false] at h
      obtain ⟨hm, hi⟩ := ih r h
      exact ⟨List.mem_cons_of_mem x hm, hi⟩

theorem perm_removeByIdx (i : Nat) :
    ∀ (l : List FileResult) (r : FileResult), findByIdx i l = some r →
    l.Perm (r :: removeByIdx i l) := by
  intro l
  induction l with
  | nil => intro r h; cases h
  | cons x xs ih =>
    intro r h
    by_cases hx : (x.index == i) = true
    · simp only [findByIdx, hx, if_true, Option.some.injEq] at h
      subst h
      simp [removeByIdx, hx]
    · simp only [findByIdx, hx, Bool.false_eq_true, if_false] at h
      simp only [removeByIdx, hx, Bool.false_eq_true, if_false]
      exact (List.Perm.cons x (ih r h)).trans (List.Perm.swap r x _)

theorem mapInsert_fresh (r : FileResult) :
    ∀ (l : List FileResult), (∀ x ∈ l, x.index ≠ r.index) →
    mapInsert r l = l ++ [r] := by
  intro l
  induction l with
  | nil => intro _; rfl
  | cons x xs ih =>
    intro h
    have hx : (x.index == r.index) = false := by
      simpa using h x (List.mem_cons_self x xs)
    simp only [mapInsert, hx, Bool.false_eq_true, if_false, List.cons_append,
      List.cons.injEq, true_and]
    exact ih (fun y hy => h y (List.mem_cons_of_mem x hy))

/-- The release loop of the reassembler keeps its three invariants: released
plus pending results is a permutation of everything inserted, the released
indices are exactly `0, …, next-1` in order, and on exit no pending entry
carries the next expected index. -/
theorem drainGo_spec :
    ∀ (fuel : Nat) (pending acc : List FileResult) (next : Nat),
    pending.length ≤ fuel →
    ((acc ++ pending).map FileResult.index).Nodup →
    acc.map FileResult.index = List.range next →
    ((drainGo fuel pending next acc).2.2 ++ (drainGo fuel pending next acc).1).Perm
        (acc ++ pending)
    ∧ (drainGo fuel pending next acc).2.2.map FileResult.index =
        List.range (drainGo fuel pending next acc).2.1
    ∧ findByIdx (drainGo fuel pending next acc).2.1
        (drainGo fuel pending next acc).1 = none := by
  intro fuel
  induction fuel with
  | zero =>
    intro pending acc next hlen _ hacc
    have hp : pending = [] := List.eq_nil_of_length_eq_zero (Nat.le_zero.mp hlen)
    subst hp
    exact ⟨List.Perm.refl _, hacc, rfl⟩
  | succ n ih =>
    intro pending acc next hlen hnodup hacc
    cases hfind : findByIdx next pending with
    | none =>
      simp only [drainGo, hfind]
      exact ⟨List.Perm.refl _, hacc, trivial⟩
    | some r =>
      obtain ⟨hmem, hidx⟩ := findByIdx_some next pending r hfind
      have hperm : pending.Perm (r :: removeByIdx next pending) :=
        perm_removeByIdx next pending r hfind
      have hlen2 : (removeByIdx next pending).length ≤ n := by
        have := hperm.length_eq
        simp at this
        omega
      have hperm2 : ((acc ++ [r]) ++ removeByIdx next pending).Perm (acc ++ pending) := by
        rw [List.append_assoc]
        exact List.Perm.append_left acc (by simpa using hperm.symm)
      have hnodup2 : (((acc ++ [r]) ++ removeByIdx next pending).map FileResult.index).Nodup :=
        ((hperm2.map FileResult.index).nodup_iff).mpr hnodup
      have hacc2 : (acc ++ [r]).map FileResult.index = List.range (next + 1) := by
        rw [List.map_append, hacc, List.range_succ]
        simp [hidx]
      obtain ⟨p1, p2, p3⟩ := ih (removeByIdx next pending) (acc ++ [r]) (next + 1)
        hlen2 hnodup2 hacc2
      simp only [drainGo, hfind]
      exact ⟨p1.trans hperm2, p2, p3⟩

/-- One arrival preserves the reassembler invariants. -/
theorem collectStep_spec (A : List FileResult)
    (s : List FileResult × Nat × List FileResult) (r : FileResult)
    (hperm : (s.2.2 ++ s.1).Perm A)
    (hacc : s.2.2.map FileResult.index = List.range s.2.1)
    (hnodup : ((A ++ [r]).map FileResult.index).Nodup) :
    ((collectStep s r).2.2 ++ (collectStep s r).1).Perm (A ++ [r])
    ∧ (collectStep s r).2.2.map FileResult.index =
        List.range (collectStep s r).2.1
    ∧ findByIdx (collectStep s r).2.1 (collectStep s r).1 = none := by
  have hfresh : ∀ x ∈ s.1, x.index ≠ r.index := by
    intro x hx hxi
    have hxA : x ∈ A := (hperm.mem_iff).mp (List.mem_append_right _ hx)
    have h1 : r.index ∈ A.map FileResult.index := by
      rw [← hxi]
      exact List.mem_map_of_mem FileResult.index hxA
    rw [List.map_append, List.nodup_append] at hnodup
    exact hnodup.2.2 h1 (by simp)
  have hins : mapInsert r s.1 = s.1 ++ [r] := mapInsert_fresh r s.1 hfresh
  have hperm2 : (s.2.2 ++ (s.1 ++ [r])).Perm (A ++ [r]) := by
    rw [← List.append_assoc]
    exact hperm.append_right [r]
  have hnodup2 : ((s.2.2 ++ mapInsert r s.1).map FileResult.index).Nodup := by
    rw [hins]
    exact ((hperm2.map FileResult.index).nodup_iff).mpr hnodup
  obtain ⟨p1, p2, p3⟩ := drainGo_spec (mapInsert r s.1).length (mapInsert r s.1)
    s.2.2 s.2.1 le_rfl hnodup2 hacc
  refine ⟨?_, p2, p3⟩
  apply p1.trans
  rw [hins]
  exact hperm2

theorem foldl_collectStep_spec :
    ∀ (arr A : List FileResult) (s : List FileResult × Nat × List FileResult),
    (s.2.2 ++ s.1).Perm A →
    s.2.2.map FileResult.index = List.range s.2.1 →
    findByIdx s.2.1 s.1 = none →
    ((A ++ arr).map FileResult.index).Nodup →
    ((arr.foldl collectStep s).2.2 ++ (arr.foldl collectStep s).1).Perm (A ++ arr)
    ∧ (arr.foldl collectStep s).2.2.map FileResult.index =
        List.range (arr.foldl collectStep s).2.1
    ∧ findByIdx (arr.foldl collectStep s).2.1 (arr.foldl collectStep s).1 = none := by
  intro arr
  induction arr with
  | nil =>
    intro A s hperm hacc hdrained _
    exact ⟨by simpa using hperm, hacc, hdrained⟩
  | cons r rest ih =>
    intro A s hperm hacc hdrained hnodup
    have hsub : (A ++ [r]).Sublist (A ++ r :: rest) := by
      apply List.Sublist.append_left
      simpa using List.nil_sublist rest
    have hnodup1 : ((A ++ [r]).map FileResult.index).Nodup :=
      List.Nodup.sublist (hsub.map FileResult.index) hnodup
    obtain ⟨q1, q2, q3⟩ := collectStep_spec A s r hperm hacc hnodup1
    have hnodup2 : (((A ++ [r]) ++ rest).map FileResult.index).Nodup := by
      rw [List.append_assoc, List.singleton_append]
      exact hnodup
    obtain ⟨p1, p2, p3⟩ := ih (A ++ [r]) (collectStep s r) q1 q2 q3 hnodup2
    rw [List.foldl_cons]
    refine ⟨?_, p2, p3⟩
    have : (A ++ [r]) ++ rest = A ++ r :: rest := by
      rw [List.append_assoc, List.singleton_append]
    rw [← this]
    exact p1

/-- C8: for every arrival order of indexed results whose indices are a
permutation of `0, …, n-1`, the reassembler releases all `n` results in
strictly ascending index order — the released list is a permutation of the
arrivals whose index sequence is exactly `0, …, n-1`, i.e. the original
input order. -/
theorem c8_ordered_release (arr : List FileResult)
    (h : (arr.map FileResult.index).Perm (List.range arr.length)) :
    (collect arr).map FileResult.index = List.range arr.length
    ∧ (collect arr).Perm arr := by
  have hnodup : (arr.map FileResult.index).Nodup :=
    (h.nodup_iff).mpr (List.nodup_range _)
  obtain ⟨p1, p2, p3⟩ := foldl_collectStep_spec arr []
    ([], 0, []) (by simp) rfl rfl (by simpa using hnodup)
  rw [List.nil_append] at p1
  have hacclen : (arr.foldl collectStep ([], 0, [])).2.2.length =
      (arr.foldl collectStep ([], 0, [])).2.1 := by
    have := congrArg List.length p2
    simpa using this
  have hsum : (arr.foldl collectStep ([], 0, [])).2.2.length +
      (arr.foldl collectStep ([], 0, [])).1.length = arr.length := by
    have := p1.length_eq
    simpa using this
  have hpend : (arr.foldl collectStep ([], 0, [])).1 = [] := by
    by_contra hne
    have hlenpos : 0 < (arr.foldl collectStep ([], 0, [])).1.length :=
      List.length_pos.mpr hne
    have hlt : (arr.foldl collectStep ([], 0, [])).2.1 < arr.length := by omega
    have hmem : (arr.foldl collectStep ([], 0, [])).2.1 ∈
        ((arr.foldl collectStep ([], 0, [])).2.2 ++
          (arr.foldl collectStep ([], 0, [])).1).map FileResult.index := by
      rw [((p1.map FileResult.index).trans (h)).mem_iff]
      exact List.mem_range.mpr hlt
    rw [List.map_append, List.mem_append] at hmem
    rcases hmem with hmem | hmem
    · rw [p2] at hmem
      exact absurd (List.mem_range.mp hmem) (lt_irrefl _)
    · obtain ⟨x, hx, hxi⟩ := List.mem_map.mp hmem
      exact findByIdx_none _ _ p3 x hx hxi
  constructor
  · have hnext : (arr.foldl collectStep ([], 0, [])).2.1 = arr.length := by
      rw [hpend] at hsum
      simp at hsum
      omega
    show (arr.foldl collectStep ([], 0, [])).2.2.map FileResult.index = _
    rw [p2, hnext]
  · show ((arr.foldl collectStep ([], 0, [])).2.2).Perm arr
    have := p1
    rw [hpend, List.append_nil] at this
    exact this

/-- Witness for C8: two results arriving out of order (indices 1 then 0) are
released in index order 0, 1. -/
theorem c8_ordered_release_witness :
    (collect [{ index := 1, lines := 7 : FileResult }, { index := 0, words := 3 : FileResult }]).map
        FileResult.index = List.range 2
    ∧ (collect [{ index := 1, lines := 7 : FileResult }, { index := 0, words := 3 : FileResult }]).Perm
        [{ index := 1, lines := 7 : FileResult }, { index := 0, words := 3 : FileResult }] :=
  c8_ordered_release
    [{ index := 1, lines := 7 : FileResult }, { index := 0, words := 3 : FileResult }]
    (by decide)


/-! ### C9: at-most-once stdin consumption -/

/-- Generalized invariant for the worker runs: starting from a stdin state
that is either untouched or already holding the one captured outcome, the
read count ends at one exactly when stdin was or gets consumed, and every
job named `-` yields the result computed from the one captured outcome. -/
theorem runJobs_spec (m : Metrics) (opt : Options) (src : List Nat × Bool)
    (fileCount : String → FileResult) :
    ∀ (order : List (Nat × String)) (st : StdinState),
    (st.cached = none ∧ st.reads = 0 ∨ st.cached = some src ∧ st.reads = 1) →
    ((runJobs m opt src fileCount st order).1.reads =
      (if st.cached.isSome || hasDash order then 1 else 0))
    ∧ (∀ p ∈ order.zip (runJobs m opt src fileCount st order).2,
        p.1.2 = "-" → p.2 = dashResult m opt src p.1.1)
    ∧ (runJobs m opt src fileCount st order).2.length = order.length := by
  intro order
  induction order with
  | nil =>
    intro st hinv
    refine ⟨?_, by simp [runJobs], by simp [runJobs]⟩
    rcases hinv with ⟨h1, h2⟩ | ⟨h1, h2⟩ <;> simp [runJobs, hasDash, h1, h2]
  | cons j js ih =>
    intro st hinv
    by_cases hdash : j.2 = "-"
    · rcases hinv with ⟨h1, h2⟩ | ⟨h1, h2⟩
      · -- first consumption of stdin
        have hjob : runJob m opt src fileCount st j =
            ({ cached := some src, reads := st.reads + 1 }, dashResult m opt src j.1) := by
          simp [runJob, hdash, h1]
        have hinv2 : ({ cached := some src, reads := st.reads + 1 } : StdinState).cached = none ∧
            ({ cached := some src, reads := st.reads + 1 } : StdinState).reads = 0 ∨
            ({ cached := some src, reads := st.reads + 1 } : StdinState).cached = some src ∧
            ({ cached := some src, reads := st.reads + 1 } : StdinState).reads = 1 := by
          right
          simp [h2]
        obtain ⟨q1, q2, q3⟩ := ih { cached := some src, reads := st.reads + 1 } hinv2
        refine ⟨?_, ?_, ?_⟩
        · simp only [runJobs, hjob, q1]
          simp [hasDash, hdash]
        · intro p hp hpd
          simp only [runJobs, hjob] at hp
          rcases List.mem_cons.mp (by simpa using hp) with hp1 | hp1
          · subst hp1; rfl
          · exact q2 p hp1 hpd
        · simp only [runJobs, hjob]
          simpa using q3
      · -- stdin already captured: reuse verbatim
        have hjob : runJob m opt src fileCount st j =
            (st, dashResult m opt src j.1) := by
          simp [runJob, hdash, h1]
        obtain ⟨q1, q2, q3⟩ := ih st (Or.inr ⟨h1, h2⟩)
        refine ⟨?_, ?_, ?_⟩
        · simp only [runJobs, hjob, q1]
          simp [h1]
        · intro p hp hpd
          simp only [runJobs, hjob] at hp
          rcases List.mem_cons.mp (by simpa using hp) with hp1 | hp1
          · subst hp1; rfl
          · exact q2 p hp1 hpd
        · simp only [runJobs, hjob]
          simpa using q3
    · -- a file job touches no shared state
      have hjob : runJob m opt src fileCount st j =
          (st, { fileCount j.2 with index := j.1 }) := by
        simp [runJob, hdash]
      obtain ⟨q1, q2, q3⟩ := ih st hinv
      refine ⟨?_, ?_, ?_⟩
      · simp only [runJobs, hjob, q1]
        simp [hasDash, hdash]
      · intro p hp hpd
        simp only [runJobs, hjob] at hp
        rcases List.mem_cons.mp (by simpa using hp) with hp1 | hp1
        · rw [hp1] at hpd
          exact absurd hpd hdash
        · exact q2 p hp1 hpd
      · simp only [runJobs, hjob]
        simpa using q3

/-- C9: for any sequential execution order of the jobs (the once-gate makes
the read-and-cache step atomic, so every pool interleaving acts like one),
the underlying read of standard input happens exactly once when any job is
named `-` and never otherwise; every job named `-` reuses the single
captured outcome verbatim, so all of them report identical counts; and every
job produces a result. -/
theorem c9_stdin_once (m : Metrics) (opt : Options) (src : List Nat × Bool)
    (fileCount : String → FileResult) (order : List (Nat × String)) :
    ((runJobs m opt src fileCount { cached := none, reads := 0 } order).1.reads =
      (if hasDash order then 1 else 0))
    ∧ (∀ p ∈ order.zip (runJobs m opt src fileCount { cached := none, reads := 0 } order).2,
        p.1.2 = "-" → p.2 = dashResult m opt src p.1.1)
    ∧ (runJobs m opt src fileCount { cached := none, reads := 0 } order).2.length =
        order.length := by
  obtain ⟨q1, q2, q3⟩ := runJobs_spec m opt src fileCount order
    { cached := none, reads := 0 } (Or.inl ⟨rfl, rfl⟩)
  exact ⟨by simpa using q1, q2, q3⟩

/-- Witness for C9: the locator `-` supplied twice leads to exactly one read
and two results with identical counts. -/
theorem c9_stdin_once_witness :
    ((runJobs
      { lines := true, words := true, bytes := true, chars := true,
        maxLineBytes := false, maxLineChars := false }
      { bufferSize := 1024, locale := { isUTF8 := true, isCOrPOSIX := false } }
      ([104, 105], false) (fun _ => {})
      { cached := none, reads := 0 } [(0, "-"), (1, "-")]).1.reads = 1)
    ∧ ((runJobs
      { lines := true, words := true, bytes := true, chars := true,
        maxLineBytes := false, maxLineChars := false }
      { bufferSize := 1024, locale := { isUTF8 := true, isCOrPOSIX := false } }
      ([104, 105], false) (fun _ => {})
      { cached := none, reads := 0 } [(0, "-"), (1, "-")]).2.map FileResult.bytes = [2, 2]) :=
  ⟨((c9_stdin_once
      { lines := true, words := true, bytes := true, chars := true,
        maxLineBytes := false, maxLineChars := false }
      { bufferSize := 1024, locale := { isUTF8 := true, isCOrPOSIX := false } }
      ([104, 105], false) (fun _ => {}) [(0, "-"), (1, "-")]).1).trans (by decide),
    by decide⟩

end GoWc
